import Mathlib

/-!
# Verification of the `bkmrk` bookmark-manager core

Shallow embedding of the core of `jtabke/bkmrk`: the slug normalizer, path
safety guard, front-matter codec, entry resolver, timestamp helpers and the
tag-mutation command.  The authoritative source is `src/old_bkmrk.py`; the
package module `src/bm/commands.py` reuses the same helpers (its support
modules `bm/utils.py` / `bm/io.py` are not in the source tree; per the spec
they coincide with the `old_bkmrk.py` definitions, which is what we embed).
Python strings are modelled as Lean `String`/`List Char` (code points, as in
CPython); machine-independent behaviour only.

Modelling notes, stated once:
* Python's `re` class `\w` is embedded on its ASCII fragment
  (`[A-Za-z0-9_]`); non-ASCII word characters are outside the model.  No
  claim in this development depends on non-ASCII word characters.
* `str.lower` is embedded as ASCII lowercasing (`Char.toLower`).
* `hashlib.blake2b` (used by `rid`) is an external primitive; resolver
  functions take the URL-hash as an explicit function parameter `ridF`.
  Concrete instantiations below use digests computed by the real
  `blake2b(..., digest_size=6)`.
-/

namespace Bkmrk

/-! ## Character classes -/

/-- Python `str.isspace` / `str.strip()` whitespace (the full CPython set). -/
def pyIsSpace (c : Char) : Bool :=
  c ∈ [' ', '\t', '\n', '\x0b', '\x0c', '\r',
       '\x1c', '\x1d', '\x1e', '\x1f', '\u0085', '\u00a0',
       '\u1680', '\u2000', '\u2001', '\u2002', '\u2003', '\u2004', '\u2005',
       '\u2006', '\u2007', '\u2008', '\u2009', '\u200a',
       '\u2028', '\u2029', '\u202f', '\u205f', '\u3000']

/-- Python `str.splitlines` line boundaries (the full CPython set;
`"\r\n"` is treated as a single boundary by `splitlinesL` below). -/
def pyIsLineBreak (c : Char) : Bool :=
  c ∈ ['\n', '\r', '\x0b', '\x0c', '\x1c', '\x1d', '\x1e', '\u0085', '\u2028', '\u2029']

/-- Regex `\w` (ASCII fragment, see the header note). -/
def isWordChar (c : Char) : Bool :=
  c.isAlphanum || c = '_'

/-- A character kept by the slug substitution (regex class `\w`, hyphen,
slash, dot); every other character is replaced by a hyphen. -/
def isKeptChar (c : Char) : Bool :=
  isWordChar c || c = '-' || c = '/' || c = '.'

/-! ## Generic list-of-characters helpers -/

/-- Drop matching characters from the right end. -/
def dropTrailing (p : Char → Bool) (l : List Char) : List Char :=
  (l.reverse.dropWhile p).reverse

/-- Python `str.strip(chars)`: drop matching characters from both ends. -/
def stripBothL (p : Char → Bool) (l : List Char) : List Char :=
  dropTrailing p (l.dropWhile p)

/-- Python `str.strip()` on a character list. -/
def pyStripL : List Char → List Char := stripBothL pyIsSpace

/-- Python `str.strip()` on a string. -/
def pyStrip (s : String) : String := ⟨pyStripL s.data⟩

/-- Python `str.strip(c)` for a single strip character. -/
def stripCharL (c : Char) : List Char → List Char := stripBothL (· = c)

/-- Worker for `collapseHyph`; `prevHyph` records whether the previously
emitted character was a hyphen (so further hyphens of the run are dropped). -/
def collapseHyphGo (prevHyph : Bool) : List Char → List Char
  | [] => []
  | c :: rest =>
    if c = '-' then
      if prevHyph then collapseHyphGo true rest
      else '-' :: collapseHyphGo true rest
    else c :: collapseHyphGo false rest

/-- Hyphen-run collapsing: every maximal run of hyphens is emitted as a
single hyphen, which is exactly the replacement of runs of two or more by
one performed by the source (single hyphens are left unchanged). -/
def collapseHyph (l : List Char) : List Char := collapseHyphGo false l

/-! ## Slug normalizer (`old_bkmrk.py::normalize_slug`, lines 80–84) -/

/-- The pipeline of `normalize_slug` before the `or "untitled"` fallback. -/
def normSlugL (s : List Char) : List Char :=
  let s1 := stripCharL '/' (pyStripL s)
  let s2 := s1.map (fun c => if c = ' ' then '-' else c)
  let s3 := s2.map (fun c => if isKeptChar c then c else '-')
  stripCharL '-' (collapseHyph s3)

/-- `normalize_slug`: strip whitespace and slashes, hyphenate spaces and
non-word characters, collapse hyphen runs, strip outer hyphens, with the
`"untitled"` fallback for an empty result. -/
def normalize_slug (s : String) : String :=
  let r := normSlugL s.data
  if r.isEmpty then "untitled" else ⟨r⟩

/-! ## Structural lemmas for the slug normalizer -/

/-- Adjacent-pair relation: not two hyphens in a row. -/
def NotDD (a b : Char) : Prop := ¬(a = '-' ∧ b = '-')

lemma collapseHyphGo_hyph_true (rest : List Char) :
    collapseHyphGo true ('-' :: rest) = collapseHyphGo true rest := by
  simp [collapseHyphGo]

lemma collapseHyphGo_hyph_false (rest : List Char) :
    collapseHyphGo false ('-' :: rest) = '-' :: collapseHyphGo true rest := by
  simp [collapseHyphGo]

lemma collapseHyphGo_other (b : Bool) {c : Char} (rest : List Char) (hc : c ≠ '-') :
    collapseHyphGo b (c :: rest) = c :: collapseHyphGo false rest := by
  simp [collapseHyphGo, hc]

lemma mem_collapseHyphGo {c : Char} :
    ∀ {l : List Char} {b : Bool}, c ∈ collapseHyphGo b l → c ∈ l := by
  intro l
  induction l with
  | nil => intro b h; simp [collapseHyphGo] at h
  | cons d rest ih =>
    intro b h
    by_cases hd : d = '-'
    · subst hd
      cases b with
      | true =>
        rw [collapseHyphGo_hyph_true] at h
        exact List.mem_cons_of_mem _ (ih h)
      | false =>
        rw [collapseHyphGo_hyph_false] at h
        rcases List.mem_cons.mp h with h | h
        · exact h ▸ List.mem_cons_self _ _
        · exact List.mem_cons_of_mem _ (ih h)
    · rw [collapseHyphGo_other b rest hd] at h
      rcases List.mem_cons.mp h with h | h
      · exact h ▸ List.mem_cons_self _ _
      · exact List.mem_cons_of_mem _ (ih h)

lemma chain_collapseHyphGo :
    ∀ (l : List Char) (b : Bool),
      List.Chain' NotDD (collapseHyphGo b l) ∧
        ((collapseHyphGo true l).head? ≠ some '-') := by
  intro l
  induction l with
  | nil => intro b; simp [collapseHyphGo]
  | cons c rest ih =>
    intro b
    by_cases hc : c = '-'
    · subst hc
      rcases ih true with ⟨hch, hhd⟩
      refine ⟨?_, by rw [collapseHyphGo_hyph_true]; exact hhd⟩
      cases b with
      | true => rw [collapseHyphGo_hyph_true]; exact hch
      | false =>
        rw [collapseHyphGo_hyph_false]
        refine List.chain'_cons'.mpr ⟨?_, hch⟩
        intro y hy hdd
        rw [Option.mem_def] at hy
        exact hhd (by rw [hy, hdd.2])
    · rcases ih false with ⟨hch, _⟩
      have hstep : ∀ b : Bool, collapseHyphGo b (c :: rest) = c :: collapseHyphGo false rest :=
        fun b => collapseHyphGo_other b rest hc
      refine ⟨?_, ?_⟩
      · rw [hstep b]
        refine List.chain'_cons'.mpr ⟨?_, hch⟩
        intro y _ hdd
        exact hc hdd.1
      · rw [hstep true, List.head?_cons]
        intro h
        exact hc (by injection h)

lemma collapseHyphGo_eq_self :
    ∀ (l : List Char) (b : Bool), List.Chain' NotDD l →
      (b = true → l.head? ≠ some '-') → collapseHyphGo b l = l := by
  intro l
  induction l with
  | nil => intro b _ _; rfl
  | cons c rest ih =>
    intro b hch hhd
    by_cases hc : c = '-'
    · subst hc
      cases b with
      | true => exact absurd rfl (hhd rfl)
      | false =>
        rw [collapseHyphGo_hyph_false]
        have hrest : collapseHyphGo true rest = rest := by
          refine ih true (List.chain'_cons'.mp hch).2 ?_
          intro _ h
          rcases rest with _ | ⟨d, rest⟩
          · simp at h
          · simp only [List.head?_cons, Option.some.injEq] at h
            exact (List.chain'_cons'.mp hch).1 d rfl ⟨rfl, h⟩
        rw [hrest]
    · rw [collapseHyphGo_other b rest hc,
          ih false (List.chain'_cons'.mp hch).2 (by simp)]

lemma isPrefix_dropTrailing (p : Char → Bool) (l : List Char) :
    (dropTrailing p l).IsPrefix l := by
  have := List.dropWhile_suffix (l := l.reverse) p
  exact List.reverse_suffix.mp (by simpa [dropTrailing] using this)

/-- Both-ends strip keeps an infix of the input. -/
lemma stripBothL_within (p : Char → Bool) (l : List Char) :
    (stripBothL p l).IsInfix l :=
  (isPrefix_dropTrailing p (l.dropWhile p)).isInfix.trans
    (List.dropWhile_suffix p).isInfix

lemma head?_dropWhile_not (p : Char → Bool) :
    ∀ (l : List Char) {a : Char}, (l.dropWhile p).head? = some a → p a = false := by
  intro l
  induction l with
  | nil => intro a h; simp at h
  | cons c rest ih =>
    intro a h
    by_cases hc : p c
    · rw [List.dropWhile_cons_of_pos hc] at h; exact ih h
    · rw [List.dropWhile_cons_of_neg hc] at h
      simp only [List.head?_cons, Option.some.injEq] at h
      subst h
      exact Bool.eq_false_iff.mpr hc

lemma getLast?_dropTrailing_not (p : Char → Bool) (l : List Char) {a : Char}
    (h : (dropTrailing p l).getLast? = some a) : p a = false := by
  rw [dropTrailing, List.getLast?_reverse] at h
  exact head?_dropWhile_not p _ h

lemma head?_of_isPrefix {l₁ l : List Char} (h : l₁.IsPrefix l) (hne : l₁ ≠ []) :
    l₁.head? = l.head? := by
  rcases h with ⟨t, rfl⟩
  rcases l₁ with _ | ⟨c, r⟩
  · exact absurd rfl hne
  · simp

lemma head?_stripBothL_not (p : Char → Bool) (l : List Char) {a : Char}
    (h : (stripBothL p l).head? = some a) : p a = false := by
  rw [stripBothL, head?_of_isPrefix (isPrefix_dropTrailing p _)
        (by rintro he; rw [he] at h; simp at h)] at h
  exact head?_dropWhile_not p _ h

lemma getLast?_stripBothL_not (p : Char → Bool) (l : List Char) {a : Char}
    (h : (stripBothL p l).getLast? = some a) : p a = false :=
  getLast?_dropTrailing_not p _ h

lemma dropWhile_eq_self_of_head (p : Char → Bool) (l : List Char)
    (h : ∀ a, l.head? = some a → p a = false) : l.dropWhile p = l := by
  rcases l with _ | ⟨c, r⟩
  · rfl
  · rw [List.dropWhile_cons_of_neg]
    simp [h c rfl]

lemma stripBothL_eq_self (p : Char → Bool) (l : List Char)
    (hh : ∀ a, l.head? = some a → p a = false)
    (hl : ∀ a, l.getLast? = some a → p a = false) : stripBothL p l = l := by
  rw [stripBothL, dropWhile_eq_self_of_head p l hh, dropTrailing,
      dropWhile_eq_self_of_head p l.reverse (by simpa [List.head?_reverse] using hl),
      List.reverse_reverse]

lemma map_id_of_forall {f : Char → Char} {l : List Char}
    (h : ∀ a ∈ l, f a = a) : l.map f = l := by
  induction l with
  | nil => rfl
  | cons c r ih => simp only [List.map_cons, h c (List.mem_cons_self c r),
      ih (fun a ha => h a (List.mem_cons_of_mem c ha))]

/-- Every character of a slug-normalizer output is a kept character. -/
lemma kept_of_mem_normSlugL {c : Char} {s : List Char} (h : c ∈ normSlugL s) :
    isKeptChar c = true := by
  simp only [normSlugL] at h
  have h2 := (stripBothL_within _ _).subset h
  have h3 := mem_collapseHyphGo h2
  rcases List.mem_map.mp h3 with ⟨a, _, ha⟩
  by_cases hk : isKeptChar a
  · rw [if_pos hk] at ha; exact ha ▸ hk
  · rw [if_neg hk] at ha; exact ha ▸ (by decide)

/-- Kept characters are never Python whitespace. -/
lemma kept_not_space {c : Char} (h : isKeptChar c = true) : pyIsSpace c = false := by
  by_contra hsp
  rw [Bool.not_eq_false] at hsp
  have hmem : c ∈ [' ', '\t', '\n', '\x0b', '\x0c', '\r',
       '\x1c', '\x1d', '\x1e', '\x1f', '\u0085', ' ',
       ' ', ' ', ' ', ' ', ' ', ' ', ' ',
       ' ', ' ', ' ', ' ', ' ',
       ' ', ' ', ' ', ' ', '　'] := by
    simpa [pyIsSpace] using hsp
  fin_cases hmem <;> exact absurd h (by decide)

lemma chain_normSlugL (s : List Char) : List.Chain' NotDD (normSlugL s) :=
  List.Chain'.infix (chain_collapseHyphGo _ false).1 (stripBothL_within _ _)

lemma head?_normSlugL (s : List Char) {a : Char} (h : (normSlugL s).head? = some a) :
    a ≠ '-' := by
  have := head?_stripBothL_not _ _ h
  simpa using this

lemma getLast?_normSlugL (s : List Char) {a : Char}
    (h : (normSlugL s).getLast? = some a) : a ≠ '-' := by
  have := getLast?_stripBothL_not _ _ h
  simpa using this

/-- The normalizer is the identity on its own output, provided that output
neither begins nor ends with a slash. -/
lemma normSlugL_fixed (s : List Char)
    (hh : (normSlugL s).head? ≠ some '/')
    (hl : (normSlugL s).getLast? ≠ some '/') :
    normSlugL (normSlugL s) = normSlugL s := by
  set r := normSlugL s with hr
  have hkept : ∀ c ∈ r, isKeptChar c = true := fun c hc => kept_of_mem_normSlugL hc
  have e1 : pyStripL r = r := by
    refine stripBothL_eq_self _ r (fun a ha => ?_) (fun a ha => ?_)
    · exact kept_not_space (hkept a (List.mem_of_mem_head? (Option.mem_def.mpr ha)))
    · exact kept_not_space (hkept a (List.mem_of_mem_getLast? (Option.mem_def.mpr ha)))
  have e2 : stripCharL '/' r = r := by
    refine stripBothL_eq_self _ r (fun a ha => ?_) (fun a ha => ?_)
    · simp only [decide_eq_false_iff_not]
      rintro rfl; exact hh ha
    · simp only [decide_eq_false_iff_not]
      rintro rfl; exact hl ha
  have e3 : r.map (fun c => if c = ' ' then '-' else c) = r := by
    refine map_id_of_forall (fun a ha => ?_)
    rw [if_neg]
    rintro rfl
    exact absurd (hkept _ ha) (by decide)
  have e4 : r.map (fun c => if isKeptChar c then c else '-') = r :=
    map_id_of_forall (fun a ha => if_pos (hkept a ha))
  have e5 : collapseHyph r = r :=
    collapseHyphGo_eq_self r false (chain_normSlugL s) (by simp)
  have e6 : stripCharL '-' r = r := by
    refine stripBothL_eq_self _ r (fun a ha => ?_) (fun a ha => ?_)
    · simp only [decide_eq_false_iff_not]
      rintro rfl; exact head?_normSlugL s ha rfl
    · simp only [decide_eq_false_iff_not]
      rintro rfl; exact getLast?_normSlugL s ha rfl
  simp only [normSlugL]
  rw [e1, e2, e3, e4, e5, e6]

/-! ## Claim C3: slug normalizer idempotence -/

/-- **C3, counterexample.**  The claim "normalize_slug(normalize_slug(s)) =
normalize_slug(s) for every string s" is false: stripping the outer hyphens
can expose a leading slash, which a second pass then strips.  Concretely, on
the three-character input hyphen slash a, the first pass strips the hyphen
and returns slash a, while the second pass strips the slash and returns a. -/
theorem C3_counterexample :
    normalize_slug (normalize_slug "-/a") ≠ normalize_slug "-/a" := by decide

/-- **C3, amended.**  The slug normalizer is idempotent on every string whose
normalization neither begins nor ends with a slash (the only escape hatch is
an outer hyphen whose removal exposes a slash at an end). -/
theorem C3_slug_idempotence_amended (s : String)
    (hh : (normalize_slug s).data.head? ≠ some '/')
    (hl : (normalize_slug s).data.getLast? ≠ some '/') :
    normalize_slug (normalize_slug s) = normalize_slug s := by
  by_cases he : (normSlugL s.data).isEmpty
  · have : normalize_slug s = "untitled" := by
      simp only [normalize_slug, if_pos he]
    rw [this]
    decide
  · have hy : normalize_slug s = ⟨normSlugL s.data⟩ := by
      simp only [normalize_slug, if_neg he]
    rw [hy] at hh hl ⊢
    have hfix := normSlugL_fixed s.data hh hl
    simp only [normalize_slug]
    rw [hfix, if_neg he]

/-- **C3, witness.**  The amended idempotence theorem applied at the concrete
input `"hello world"` (whose normalization is `"hello-world"`). -/
theorem C3_witness :
    (normalize_slug "hello world").data.head? ≠ some '/' ∧
    (normalize_slug "hello world").data.getLast? ≠ some '/' ∧
    normalize_slug (normalize_slug "hello world") = normalize_slug "hello world" :=
  ⟨by decide, by decide, C3_slug_idempotence_amended "hello world" (by decide) (by decide)⟩

/-! ## Path safety guard (`old_bkmrk.py::_reject_unsafe`, `id_to_path`) -/

/-- Python `str.split(sep)` for a one-character separator
(`"".split(sep) = [""]`, empty pieces kept). -/
def splitOnCL (sep : Char) : List Char → List (List Char)
  | [] => [[]]
  | c :: rest =>
    if c = sep then [] :: splitOnCL sep rest
    else
      match splitOnCL sep rest with
      | [] => [[c]]
      | h :: t => (c :: h) :: t

/-- The fatal errors raised through `die(...)` by the embedded functions. -/
inductive DieErr where
  | unsafeSegment : DieErr
  | absolutePath : DieErr
  | notFound : DieErr
  deriving DecidableEq, Repr

/-- The nonempty slash-separated segments of a path string
(`[p for p in rel.split("/") if p]`). -/
def pathSegs (rel : String) : List (List Char) :=
  (splitOnCL '/' rel.data).filter (fun p => ¬ p.isEmpty)

/-- `"/".join(parts)`. -/
def joinSegs (parts : List (List Char)) : List Char := List.intercalate ['/'] parts

/-- `_reject_unsafe`: refuse a `".."` segment, then refuse a leading slash,
else return the cleaned slash-joined relative path. -/
def _reject_unsafe (rel : String) : Except DieErr String :=
  let parts := pathSegs rel
  if parts.any (fun p => p = ['.', '.']) then .error .unsafeSegment
  else if rel.data.head? = some '/' then .error .absolutePath
  else .ok ⟨joinSegs parts⟩

/-- `id_to_path`: normalize the slug, reject unsafe paths, and produce
`store / (slug + ".bm")` (POSIX path join embedded as string concatenation). -/
def id_to_path (store slug : String) : Except DieErr String :=
  match _reject_unsafe (normalize_slug slug) with
  | .error e => .error e
  | .ok cleaned => .ok (store ++ "/" ++ cleaned ++ ".bm")

/-! ## Claim C5: path escape rejection -/

/-- **C5.**  `id_to_path` fails (with one of the two `die` errors the spec
groups as `UnsafePath`) exactly when the normalized slug has a `".."`
segment or begins with a slash; otherwise it returns
`<store>/<cleaned slug>.bm` whose cleaned segments are all nonempty and
free of `".."` — the returned path stays lexically under the store root. -/
theorem C5_path_escape_rejection (store slug : String) :
    (((pathSegs (normalize_slug slug)).any (fun p => p = ['.', '.']) = true ∨
        (normalize_slug slug).data.head? = some '/') →
      id_to_path store slug = .error .unsafeSegment ∨
        id_to_path store slug = .error .absolutePath) ∧
    (((pathSegs (normalize_slug slug)).any (fun p => p = ['.', '.']) = false ∧
        (normalize_slug slug).data.head? ≠ some '/') →
      id_to_path store slug =
          .ok (store ++ "/" ++ (⟨joinSegs (pathSegs (normalize_slug slug))⟩ : String) ++ ".bm") ∧
        ∀ seg ∈ pathSegs (normalize_slug slug), seg ≠ [] ∧ seg ≠ ['.', '.']) := by
  constructor
  · intro h
    by_cases ha : (pathSegs (normalize_slug slug)).any (fun p => p = ['.', '.']) = true
    · left
      simp only [id_to_path, _reject_unsafe, if_pos ha]
    · right
      have hb : (normalize_slug slug).data.head? = some '/' := by
        rcases h with h | h
        · exact absurd h ha
        · exact h
      simp only [id_to_path, _reject_unsafe]
      rw [if_neg (by simp [ha]), if_pos hb]
  · rintro ⟨ha, hb⟩
    constructor
    · simp only [id_to_path, _reject_unsafe]
      rw [if_neg (by simp [ha]), if_neg hb]
    · intro seg hseg
      refine ⟨?_, ?_⟩
      · have := (List.mem_filter.mp hseg).2
        simpa [List.isEmpty_iff] using this
      · intro hdd
        have hmem := (List.mem_filter.mp hseg).1
        have : (splitOnCL '/' (normalize_slug slug).data).any (fun p => p = ['.', '.']) = true :=
          List.any_eq_true.mpr ⟨seg, hmem, by simp [hdd]⟩
        have hfalse : (pathSegs (normalize_slug slug)).any (fun p => p = ['.', '.']) = true :=
          List.any_eq_true.mpr ⟨seg, hseg, by simp [hdd]⟩
        rw [ha] at hfalse
        exact Bool.false_ne_true hfalse

/-- **C5, witness.**  The two concrete cases named by the claim: the
traversal input fails, and `"a/b"` succeeds with the expected path under
the store root. -/
theorem C5_witness :
    (id_to_path "store" "../../etc/passwd" = Except.error DieErr.unsafeSegment ∨
      id_to_path "store" "../../etc/passwd" = Except.error DieErr.absolutePath) ∧
    id_to_path "store" "a/b" = Except.ok "store/a/b.bm" :=
  ⟨(C5_path_escape_rejection "store" "../../etc/passwd").1 (Or.inl (by decide)),
    ((C5_path_escape_rejection "store" "a/b").2 ⟨by decide, by decide⟩).1.trans
      (congrArg Except.ok (by decide))⟩

/-! ## Metadata values and maps

Python metadata dicts map string keys to either a string or a list of
strings (plus `None`, which only ever appears transiently and is dropped by
the encoder's filter).  Insertion order matters for rendering, so the model
is an ordered association list; a Python dict additionally has unique keys,
which holds for every map the embedded code constructs and is hypothesised
(`MetaWF`) where a theorem quantifies over arbitrary maps. -/

inductive Val where
  | vs : String → Val
  | vl : List String → Val
  | vnone : Val
  deriving DecidableEq, Repr

abbrev Meta := List (String × Val)

/-- Key membership (`k in m`). -/
def containsKey (m : Meta) (k : String) : Bool := m.any (fun kv => kv.1 = k)

/-- First-match lookup (`m[k]` / `m.get(k)`). -/
def lookupV : Meta → String → Option Val
  | [], _ => none
  | kv :: rest, k => if kv.1 = k then some kv.2 else lookupV rest k

/-- `m[k] = v`: replace in place if the key exists, else append. -/
def setIns (m : Meta) (k : String) (v : Val) : Meta :=
  if containsKey m k then m.map (fun kv => if kv.1 = k then (k, v) else kv)
  else m ++ [(k, v)]

/-- `m.pop(k)` (the removal part). -/
def eraseKey (m : Meta) (k : String) : Meta := m.filter (fun kv => ¬ kv.1 = k)

/-! ## Front-matter codec (`old_bkmrk.py` lines 138–246) -/

/-- `[t.strip() for t in v.split(",") if t.strip()]`. -/
def splitCommaStrip (v : List Char) : List String :=
  (splitOnCL ',' v).filterMap
    (fun t => let s := pyStripL t; if s.isEmpty then none else some (⟨s⟩ : String))

/-- One legacy-key rename of `_normalize_meta`: if `old` is present and
`new` absent, remove `old` (a `dict.pop`) and append `new` with its value. -/
def renameLegacy (old new : String) (m : Meta) : Meta :=
  if containsKey m old && ! containsKey m new then
    match lookupV m old with
    | some v => eraseKey m old ++ [(new, v)]
    | none => m
  else m

/-- The shape fix of `_normalize_meta`: a string-valued `tags` is comma-split
into a list (in place). -/
def tagsStrToList (m : Meta) : Meta :=
  match lookupV m "tags" with
  | some (.vs tv) => setIns m "tags" (.vl (splitCommaStrip tv.data))
  | _ => m

/-- The default of `_normalize_meta`: an absent `tags` becomes the empty list. -/
def ensureTags (m : Meta) : Meta :=
  if containsKey m "tags" then m else m ++ [("tags", Val.vl [])]

/-- `_normalize_meta`: legacy key renames (`added`→`created`, then
`updated`→`modified`), comma-splitting of a string-valued `tags`, and
defaulting `tags` to the empty list — composed in source order. -/
def _normalize_meta (meta : Meta) : Meta :=
  ensureTags (tagsStrToList (renameLegacy "updated" "modified" (renameLegacy "added" "created" meta)))

/-- Worker for `splitlinesL`; `acc` is the current (unterminated) line. -/
def splitlinesGo (acc : List Char) : List Char → List (List Char)
  | [] => if acc.isEmpty then [] else [acc]
  | c :: rest =>
    if c = '\r' then
      match rest with
      | [] => acc :: splitlinesGo [] []
      | r2 :: rest2 =>
        if r2 = '\n' then acc :: splitlinesGo [] rest2
        else acc :: splitlinesGo [] (r2 :: rest2)
    else if pyIsLineBreak c then acc :: splitlinesGo [] rest
    else splitlinesGo (acc ++ [c]) rest

/-- Python `str.splitlines()` (boundaries per `pyIsLineBreak`, CRLF fused,
no trailing empty line for a terminated final line). -/
def splitlinesL (l : List Char) : List (List Char) := splitlinesGo [] l

/-- Python `str.find(sub)`, as an `Option` index of the first occurrence. -/
def findSubL (pat : List Char) : List Char → Option Nat
  | [] => if pat.isEmpty then some 0 else none
  | x :: rest =>
    if pat.isPrefixOf (x :: rest) then some 0
    else (findSubL pat rest).map (· + 1)

/-- The comma-splitting quote-toggle scanner of the bracketed `tags` value:
a quote character toggles the in-quotes flag and is discarded; a comma
outside quotes ends the current piece (pushed stripped, if nonempty). -/
def scanTags : List Char → List Char → List (List Char) → Bool → List (List Char)
  | [], buf, parts, _ =>
    if (pyStripL buf).isEmpty then parts else parts ++ [pyStripL buf]
  | ch :: rest, buf, parts, inq =>
    if ch = '"' ∨ ch = '\'' then scanTags rest buf parts (!inq)
    else if ch = ',' ∧ inq = false then
      scanTags rest []
        (if (pyStripL buf).isEmpty then parts else parts ++ [pyStripL buf]) inq
    else scanTags rest (buf ++ [ch]) parts inq

/-- `[t.strip() for t in parts if t.strip()]`. -/
def tagsFromParts (parts : List (List Char)) : List String :=
  parts.filterMap
    (fun t => let s := pyStripL t; if s.isEmpty then none else some (⟨s⟩ : String))

/-- The `tags` value parser: bracketed form via the quote-toggle scanner,
bare form via comma splitting. -/
def parseTagsVal (v : List Char) : List String :=
  if v.head? = some '[' ∧ v.getLast? = some ']' then
    let inner := pyStripL (v.drop 1).dropLast
    if inner.isEmpty then []
    else tagsFromParts (scanTags inner [] [] false)
  else splitCommaStrip v

/-- ASCII `str.lower()`. -/
def lowerAscii (l : List Char) : List Char := l.map Char.toLower

/-- One header line: strip; skip blank and `#` comment lines; require a
colon; split at the first colon into key (stripped, lowered) and value
(stripped); `tags` parsed specially, all else stored as a raw string. -/
def parseHeaderLine (m : Meta) (raw : List Char) : Meta :=
  let line := pyStripL raw
  if line.isEmpty then m
  else if line.head? = some '#' then m
  else if line.contains ':' then
    let k := line.takeWhile (fun c => ¬ c = ':')
    let v := (line.dropWhile (fun c => ¬ c = ':')).tail
    let key : String := ⟨lowerAscii (pyStripL k)⟩
    let value := pyStripL v
    if key = "tags" then setIns m "tags" (.vl (parseTagsVal value))
    else setIns m key (.vs ⟨value⟩)
  else m

/-- The front-matter delimiter `"---\n"` (both opener and closer). -/
def fmMark : List Char := ['-', '-', '-', '\n']

/-- `parse_front_matter` (decode): see the source for the three paths
(no front matter with best-effort URL inference; missing close delimiter;
well-formed header). -/
def parse_front_matter (text : String) : Meta × String :=
  if fmMark.isPrefixOf text.data then
    let rest := text.data.drop 4
    match findSubL fmMark rest with
    | none => (_normalize_meta [], text)
    | some i =>
      let header := rest.take i
      let body := rest.drop (i + 4)
      let meta := (splitlinesL header).foldl parseHeaderLine []
      (_normalize_meta meta, ⟨body.dropWhile (fun c => c = '\n')⟩)
  else
    match splitlinesL text.data with
    | [] => (_normalize_meta [], text)
    | first :: restLines =>
      let mu := pyStripL first
      if "http://".data.isPrefixOf mu ∨ "https://".data.isPrefixOf mu then
        (_normalize_meta [("url", .vs ⟨mu⟩)],
          ⟨(List.intercalate ['\n'] restLines).dropWhile (fun c => c = '\n')⟩)
      else (_normalize_meta [], text)

/-- `_fmt_tag`: double-quote a tag containing a comma or a space, or empty. -/
def _fmt_tag (t : String) : String :=
  if t.data.contains ',' ∨ t.data.contains ' ' ∨ t = "" then "\"" ++ t ++ "\"" else t

/-- Python `str(v)` for the non-list render branch. -/
def strOfVal : Val → String
  | .vs s => s
  | .vl _ => ""
  | .vnone => "None"

/-- The non-list render branch of one header line: inline `k: v` for a
single-line `str(v)`, a two-space-indented block scalar otherwise. -/
def renderStrLine (k : String) (sv : List Char) : List Char :=
  if sv.contains '\n' then
    k.data ++ (": |\n").data ++
      ((splitlinesL sv).map (fun ln => [' ', ' '] ++ ln ++ ['\n'])).flatten
  else k.data ++ [':', ' '] ++ sv ++ ['\n']

/-- Render one header line (with its trailing newline): list values as
`k: [a, b]`, multi-line strings as a two-space-indented block scalar,
everything else inline. -/
def renderKV (k : String) (v : Val) : List Char :=
  match v with
  | .vl ts =>
    k.data ++ (": [").data ++
      List.intercalate (", ").data (ts.map (fun t => (_fmt_tag t).data)) ++ [']', '\n']
  | .vs s => renderStrLine k s.data
  | .vnone => renderStrLine k ("None").data

/-- A value the encoder's filter drops (`v not in (None, "", [])`). -/
def isEmptyVal : Val → Bool
  | .vnone => true
  | .vs s => s.isEmpty
  | .vl ts => ts.isEmpty

/-- The encoder's filter: drop keys whose value is `None`, `""` or `[]`. -/
def filterEmpty (m : Meta) : Meta := m.filter (fun kv => ! isEmptyVal kv.2)

/-- The fixed render order of recognised keys. -/
def orderKeys : List String := ["url", "title", "tags", "created", "modified", "notes"]

/-- Render order: recognised keys first (in `orderKeys` order), then the
remaining keys in map order. -/
def buildKeys (m : Meta) : List String :=
  orderKeys.filter (fun k => containsKey m k) ++
    (m.map Prod.fst).filter (fun k => ¬ k ∈ orderKeys)

/-- The rendered header lines of `build_text` (between the delimiters). -/
def buildHeaderLines (meta : Meta) : List (List Char) :=
  let m := _normalize_meta (filterEmpty meta)
  (buildKeys m).map (fun k => renderKV k ((lookupV m k).getD (.vs "")))

/-- `build_text` (encode): delimiter, rendered header lines, delimiter,
body appended verbatim. -/
def build_text (meta : Meta) (body : String) : String :=
  ⟨fmMark ++ (buildHeaderLines meta).flatten ++ fmMark ++ body.data⟩

/-! ## Association-list lemmas for `Meta` -/

lemma containsKey_eq_false_iff {m : Meta} {k : String} :
    containsKey m k = false ↔ ∀ kv ∈ m, kv.1 ≠ k := by
  simp [containsKey, List.any_eq_false]

lemma lookupV_isSome_iff (m : Meta) (k : String) :
    (lookupV m k).isSome = containsKey m k := by
  induction m with
  | nil => rfl
  | cons kv rest ih =>
    by_cases h : kv.1 = k
    · simp [lookupV, containsKey, h]
    · simp only [lookupV, if_neg h, containsKey, List.any_cons, decide_eq_true_eq, h,
        false_or, Bool.false_or, decide_eq_false h]
      exact ih

lemma lookupV_eq_none_of_not_contains {m : Meta} {k : String}
    (h : containsKey m k = false) : lookupV m k = none := by
  have := lookupV_isSome_iff m k
  rw [h] at this
  exact Option.not_isSome_iff_eq_none.mp (by simp [this])

lemma containsKey_of_lookupV_some {m : Meta} {k : String} {v : Val}
    (h : lookupV m k = some v) : containsKey m k = true := by
  have := lookupV_isSome_iff m k
  rw [h] at this
  exact this.symm

lemma lookupV_append_of_none {a : Meta} (b : Meta) {k : String}
    (h : lookupV a k = none) : lookupV (a ++ b) k = lookupV b k := by
  induction a with
  | nil => rfl
  | cons kv rest ih =>
    by_cases hk : kv.1 = k
    · simp [lookupV, hk] at h
    · simp only [lookupV, if_neg hk] at h
      simpa [lookupV, hk] using ih h

lemma lookupV_append_of_some {a : Meta} (b : Meta) {k : String} {v : Val}
    (h : lookupV a k = some v) : lookupV (a ++ b) k = some v := by
  induction a with
  | nil => simp [lookupV] at h
  | cons kv rest ih =>
    by_cases hk : kv.1 = k
    · simp only [lookupV, if_pos hk] at h
      simpa [lookupV, hk] using h
    · simp only [lookupV, if_neg hk] at h
      simpa [lookupV, hk] using ih h

lemma lookupV_mapReplace_ne (m : Meta) (k : String) (v : Val) {q : String}
    (hq : q ≠ k) :
    lookupV (m.map (fun kv => if kv.1 = k then (k, v) else kv)) q = lookupV m q := by
  induction m with
  | nil => rfl
  | cons kv rest ih =>
    by_cases hk : kv.1 = k
    · rw [List.map_cons, if_pos hk]
      simp only [lookupV]
      rw [if_neg (fun he : k = q => hq he.symm), if_neg (fun he : kv.1 = q => hq (he ▸ hk))]
      exact ih
    · rw [List.map_cons, if_neg hk]
      simp only [lookupV]
      by_cases hkq : kv.1 = q
      · rw [if_pos hkq, if_pos hkq]
      · rw [if_neg hkq, if_neg hkq]
        exact ih

lemma lookupV_mapReplace_self (m : Meta) (k : String) (v : Val)
    (hc : containsKey m k = true) :
    lookupV (m.map (fun kv => if kv.1 = k then (k, v) else kv)) k = some v := by
  induction m with
  | nil => simp [containsKey] at hc
  | cons kv rest ih =>
    by_cases hk : kv.1 = k
    · rw [List.map_cons, if_pos hk]
      simp [lookupV]
    · rw [List.map_cons, if_neg hk]
      simp only [lookupV, if_neg hk]
      refine ih ?_
      simpa [containsKey, hk] using hc

lemma lookupV_setIns_self (m : Meta) (k : String) (v : Val) :
    lookupV (setIns m k v) k = some v := by
  rw [setIns]
  by_cases h : containsKey m k
  · rw [if_pos h]
    exact lookupV_mapReplace_self m k v h
  · rw [if_neg h]
    rw [lookupV_append_of_none _ (lookupV_eq_none_of_not_contains (by simpa using h))]
    simp [lookupV]

lemma lookupV_setIns_ne (m : Meta) (k : String) (v : Val) {q : String}
    (hq : q ≠ k) : lookupV (setIns m k v) q = lookupV m q := by
  rw [setIns]
  by_cases h : containsKey m k
  · rw [if_pos h]
    exact lookupV_mapReplace_ne m k v hq
  · rw [if_neg h]
    cases hw : lookupV m q with
    | some w => rw [lookupV_append_of_some _ hw]
    | none =>
      rw [lookupV_append_of_none _ hw]
      rw [lookupV, if_neg (fun he : (k, v).1 = q => hq he.symm)]
      rfl

lemma mem_of_lookupV_some {m : Meta} {k : String} {v : Val}
    (h : lookupV m k = some v) : (k, v) ∈ m := by
  induction m with
  | nil => simp [lookupV] at h
  | cons kv rest ih =>
    by_cases hk : kv.1 = k
    · simp only [lookupV, if_pos hk, Option.some.injEq] at h
      exact List.mem_cons.mpr (Or.inl (by rw [← hk, ← h]))
    · simp only [lookupV, if_neg hk] at h
      exact List.mem_cons_of_mem _ (ih h)

lemma mem_setIns_ne {m : Meta} {k : String} {v : Val} {kv : String × Val}
    (h : kv ∈ setIns m k v) (hne : kv.1 ≠ k) : kv ∈ m := by
  rw [setIns] at h
  by_cases hc : containsKey m k
  · rw [if_pos hc] at h
    rcases List.mem_map.mp h with ⟨kv0, h0, hkv⟩
    by_cases hk0 : kv0.1 = k
    · rw [if_pos hk0] at hkv
      exact absurd (by rw [← hkv]) hne
    · rw [if_neg hk0] at hkv
      exact hkv ▸ h0
  · rw [if_neg hc] at h
    rcases List.mem_append.mp h with h | h
    · exact h
    · simp only [List.mem_singleton] at h
      exact absurd (by rw [h]) hne

lemma mem_eraseKey_subset {m : Meta} {k : String} {kv : String × Val}
    (h : kv ∈ eraseKey m k) : kv ∈ m :=
  List.mem_of_mem_filter h

lemma lookupV_eraseKey_ne (m : Meta) (k : String) {q : String} (hq : q ≠ k) :
    lookupV (eraseKey m k) q = lookupV m q := by
  induction m with
  | nil => rfl
  | cons kv rest ih =>
    by_cases hk : kv.1 = k
    · rw [eraseKey, List.filter_cons_of_neg (by simpa using hk)]
      rw [eraseKey] at ih
      rw [ih, lookupV, if_neg (fun he : kv.1 = q => hq (he ▸ hk))]
    · rw [eraseKey, List.filter_cons_of_pos (by simpa using hk)]
      rw [eraseKey] at ih
      simp only [lookupV, ih]

lemma lookupV_renameLegacy_ne (old new : String) (m : Meta) {q : String}
    (h1 : q ≠ old) (h2 : q ≠ new) :
    lookupV (renameLegacy old new m) q = lookupV m q := by
  rw [renameLegacy]
  split
  · split
    · rename_i v hv
      cases hw : lookupV (eraseKey m old) q with
      | some w =>
        rw [lookupV_append_of_some _ hw, ← lookupV_eraseKey_ne m old h1, hw]
      | none =>
        rw [lookupV_append_of_none _ hw, ← lookupV_eraseKey_ne m old h1, hw]
        rw [lookupV, if_neg (fun he : (new, v).1 = q => h2 he.symm)]
        rfl
    · rfl
  · rfl

lemma lookupV_tagsStrToList_ne (m : Meta) {q : String} (hq : q ≠ "tags") :
    lookupV (tagsStrToList m) q = lookupV m q := by
  rw [tagsStrToList]
  split
  · exact lookupV_setIns_ne m "tags" _ hq
  · rfl

/-- `_normalize_meta` guarantees a list-valued `tags` key, provided the
input does not map `tags` to Python `None` (no embedded code path does). -/
lemma normalize_meta_tags (m : Meta) (h : lookupV m "tags" ≠ some Val.vnone) :
    ∃ ts : List String, lookupV (_normalize_meta m) "tags" = some (Val.vl ts) := by
  rw [_normalize_meta]
  set m2 := renameLegacy "updated" "modified" (renameLegacy "added" "created" m) with hm2
  have h2 : lookupV m2 "tags" = lookupV m "tags" := by
    rw [hm2, lookupV_renameLegacy_ne _ _ _ (by decide) (by decide),
        lookupV_renameLegacy_ne _ _ _ (by decide) (by decide)]
  cases hv : lookupV m2 "tags" with
  | none =>
    have hm3 : tagsStrToList m2 = m2 := by
      rw [tagsStrToList, hv]
    rw [hm3, ensureTags]
    rw [if_neg (by
      have := lookupV_isSome_iff m2 "tags"
      rw [hv] at this
      simp [← this])]
    refine ⟨[], ?_⟩
    rw [lookupV_append_of_none _ hv]
    rfl
  | some v =>
    cases v with
    | vs tv =>
      have hm3 : tagsStrToList m2 = setIns m2 "tags" (.vl (splitCommaStrip tv.data)) := by
        rw [tagsStrToList, hv]
      rw [hm3, ensureTags, if_pos (containsKey_of_lookupV_some (lookupV_setIns_self m2 "tags" _))]
      exact ⟨_, lookupV_setIns_self m2 "tags" _⟩
    | vl ts =>
      have hm3 : tagsStrToList m2 = m2 := by
        rw [tagsStrToList, hv]
      rw [hm3, ensureTags, if_pos (containsKey_of_lookupV_some hv)]
      exact ⟨ts, hv⟩
    | vnone =>
      rw [h2] at hv
      exact absurd hv h

lemma tags_not_vnone_parseHeaderLine (m : Meta) (raw : List Char)
    (h : lookupV m "tags" ≠ some Val.vnone) :
    lookupV (parseHeaderLine m raw) "tags" ≠ some Val.vnone := by
  simp only [parseHeaderLine]
  split
  · exact h
  · split
    · exact h
    · split
      · split
        · rw [lookupV_setIns_self]
          simp
        · rename_i hne
          rw [lookupV_setIns_ne _ _ _ (fun he => hne he.symm)]
          exact h
      · exact h

lemma tags_not_vnone_foldl (lines : List (List Char)) :
    ∀ m : Meta, lookupV m "tags" ≠ some Val.vnone →
      lookupV (lines.foldl parseHeaderLine m) "tags" ≠ some Val.vnone := by
  induction lines with
  | nil => intro m h; exact h
  | cons line rest ih =>
    intro m h
    exact ih _ (tags_not_vnone_parseHeaderLine m line h)

/-! ## Claim C7: decode is total and degrades gracefully -/

/-- **C7.**  Decode is a total function (first conjunct: every input yields
a metadata–body pair), and on a text that starts with the open delimiter but
has no close delimiter it returns exactly the defaulted empty metadata
(`tags: []` only) with the entire original text as the body. -/
theorem C7_decode_malformed_graceful (t : String) :
    (∃ m b, parse_front_matter t = (m, b)) ∧
    (fmMark.isPrefixOf t.data → findSubL fmMark (t.data.drop 4) = none →
      parse_front_matter t = ([("tags", Val.vl [])], t)) := by
  refine ⟨⟨_, _, rfl⟩, fun h1 h2 => ?_⟩
  simp only [parse_front_matter, if_pos h1, h2]
  rw [show _normalize_meta ([] : Meta) = [("tags", Val.vl [])] from by decide]

/-- **C7, witness.**  The malformed-input case evaluated at a concrete text
with an open delimiter and no close delimiter. -/
theorem C7_witness :
    parse_front_matter "---\nabc" = ([("tags", Val.vl [])], "---\nabc") :=
  (C7_decode_malformed_graceful "---\nabc").2 (by decide) (by decide)

/-! ## Claim C10: decoded metadata always carries a list-valued `tags` -/

/-- **C10.**  On every decode path (no front matter — with or without a URL
first line —, missing close delimiter, well-formed header) the returned
metadata maps `tags` to a list of strings. -/
theorem C10_decode_tags_invariant (t : String) :
    ∃ ts : List String, lookupV (parse_front_matter t).1 "tags" = some (Val.vl ts) := by
  simp only [parse_front_matter]
  split
  · split
    · exact normalize_meta_tags [] (by simp [lookupV])
    · exact normalize_meta_tags _ (tags_not_vnone_foldl _ [] (by simp [lookupV]))
  · split
    · exact normalize_meta_tags [] (by simp [lookupV])
    · split
      · rename_i first restLines hsplit hurl
        exact normalize_meta_tags [("url", Val.vs ⟨pyStripL first⟩)] (by simp [lookupV])
      · exact normalize_meta_tags [] (by simp [lookupV])

/-! ## Claim C4: the encoder's empty-value filter -/

lemma renameLegacy_preserves (old new : String) (m : Meta)
    (h : ∀ kv ∈ m, isEmptyVal kv.2 = false) :
    ∀ kv ∈ renameLegacy old new m, isEmptyVal kv.2 = false := by
  intro kv hkv
  rw [renameLegacy] at hkv
  split at hkv
  · split at hkv
    · rename_i v hv
      rcases List.mem_append.mp hkv with h1 | h1
      · exact h kv (mem_eraseKey_subset h1)
      · simp only [List.mem_singleton] at h1
        subst h1
        exact h (old, v) (mem_of_lookupV_some hv)
    · exact h kv hkv
  · exact h kv hkv

lemma mem_tagsStrToList_ne {m : Meta} {kv : String × Val}
    (h : kv ∈ tagsStrToList m) (hne : kv.1 ≠ "tags") : kv ∈ m := by
  rw [tagsStrToList] at h
  split at h
  · exact mem_setIns_ne h hne
  · exact h

lemma mem_ensureTags_ne {m : Meta} {kv : String × Val}
    (h : kv ∈ ensureTags m) (hne : kv.1 ≠ "tags") : kv ∈ m := by
  rw [ensureTags] at h
  split at h
  · exact h
  · rcases List.mem_append.mp h with h1 | h1
    · exact h1
    · simp only [List.mem_singleton] at h1
      exact absurd (by rw [h1]) hne

/-- Every non-`tags` entry of the normalized filtered map has a nonempty
value (the filter removed empty ones and normalization only moves values). -/
lemma normalize_filter_nonempty (meta : Meta) :
    ∀ kv ∈ _normalize_meta (filterEmpty meta), kv.1 ≠ "tags" → isEmptyVal kv.2 = false := by
  intro kv hkv hne
  have q1 : ∀ kv ∈ filterEmpty meta, isEmptyVal kv.2 = false := by
    intro kv hkv
    have := List.of_mem_filter hkv
    simpa using this
  have q2 := renameLegacy_preserves "added" "created" _ q1
  have q3 := renameLegacy_preserves "updated" "modified" _ q2
  exact q3 kv (mem_tagsStrToList_ne (mem_ensureTags_ne hkv hne) hne)

/-- **C4, counterexample.**  Encoding a map whose `tags` value is the empty
list does produce a `tags` line: the filter drops it, but `_normalize_meta`
re-inserts `tags: []`, which is rendered. -/
theorem C4_counterexample :
    build_text [("tags", Val.vl [])] "" = "---\ntags: []\n---\n" ∧
    buildHeaderLines [("tags", Val.vl [])] = [("tags: []\n").data] :=
  ⟨by decide, by decide⟩

/-- **C4, amended.**  Every header line rendered by encode belongs to a key
of the normalized filtered map; any such key other than `tags` has a
non-None, non-empty-string, non-empty-list value — but `tags` itself is
always present (re-inserted as `[]` when it was dropped), so a `tags` line
always appears, rendered as `tags: []` for the empty list. -/
theorem C4_encode_drops_empty_amended (meta : Meta) :
    (∀ line ∈ buildHeaderLines meta, ∃ k v,
        (k, v) ∈ _normalize_meta (filterEmpty meta) ∧
        line = renderKV k v ∧
        (k ≠ "tags" → isEmptyVal v = false)) ∧
    (∃ ts, lookupV (_normalize_meta (filterEmpty meta)) "tags" = some (Val.vl ts)) := by
  constructor
  · intro line hline
    simp only [buildHeaderLines] at hline
    rcases List.mem_map.mp hline with ⟨k, hk, hrend⟩
    have hcont : containsKey (_normalize_meta (filterEmpty meta)) k = true := by
      rcases List.mem_append.mp hk with hk | hk
      · exact (List.mem_filter.mp hk).2
      · have hmem := (List.mem_filter.mp hk).1
        rcases List.mem_map.mp hmem with ⟨kv, hkv, hfst⟩
        exact List.any_eq_true.mpr ⟨kv, hkv, by simp [hfst]⟩
    obtain ⟨v, hv⟩ := Option.isSome_iff_exists.mp
      (by rw [lookupV_isSome_iff]; exact hcont)
    refine ⟨k, v, mem_of_lookupV_some hv, ?_,
      fun hne => normalize_filter_nonempty meta (k, v) (mem_of_lookupV_some hv) hne⟩
    rw [← hrend, hv]
    rfl
  · refine normalize_meta_tags _ (fun hx => ?_)
    have := List.of_mem_filter (mem_of_lookupV_some hx)
    simp [isEmptyVal] at this

/-- **C4, witness.**  The amended theorem applied to a concrete map holding
an empty-valued `title` and a nonempty `url`: the rendered `url` line is
accounted for by a nonempty value. -/
theorem C4_witness :
    ∃ k v,
      (k, v) ∈ _normalize_meta (filterEmpty [("title", Val.vs ""), ("url", Val.vs "https://x.com")]) ∧
      ("url: https://x.com\n").data = renderKV k v ∧
      (k ≠ "tags" → isEmptyVal v = false) :=
  (C4_encode_drops_empty_amended [("title", Val.vs ""), ("url", Val.vs "https://x.com")]).1
    (("url: https://x.com\n").data) (by decide)

/-! ## Timestamp helpers (`old_bkmrk.py` lines 49–72)

`datetime.fromisoformat` is a CPython primitive, external to the repository;
it is modelled on the sub-grammar
`YYYY-MM-DD[(T or space)HH:MM[:SS]][±HH:MM]` with calendar validation —
fractional seconds, offset seconds and the compact forms newer CPython also
accepts are outside the model (no claim depends on them).  An aware instant
carries its UTC offset in minutes; the process-local timezone that
`astimezone()` and naive `timestamp()` consult is modelled as an explicit
fixed offset parameter `localOff` (minutes). -/

structure PyDateTime where
  year : Nat
  month : Nat
  day : Nat
  hour : Nat
  minute : Nat
  second : Nat
  tzMinutes : Option Int
  deriving DecidableEq, Repr

/-- Two ASCII digits. -/
def d2 (a b : Char) : Option Nat :=
  if a.isDigit && b.isDigit then some ((a.toNat - 48) * 10 + (b.toNat - 48)) else none

/-- Four ASCII digits. -/
def d4 (a b c d : Char) : Option Nat :=
  if a.isDigit && b.isDigit && c.isDigit && d.isDigit then
    some ((((a.toNat - 48) * 10 + (b.toNat - 48)) * 10 + (c.toNat - 48)) * 10 + (d.toNat - 48))
  else none

def isLeap (y : Nat) : Bool := y % 4 = 0 && (y % 100 ≠ 0 || y % 400 = 0)

def daysInMonth (y m : Nat) : Nat :=
  if m = 2 then (if isLeap y then 29 else 28)
  else if m = 1 ∨ m = 3 ∨ m = 5 ∨ m = 7 ∨ m = 8 ∨ m = 10 ∨ m = 12 then 31
  else 30

/-- Calendar validity as `datetime` enforces it (`MINYEAR = 1`). -/
def validDate (y m d : Nat) : Bool :=
  1 ≤ y && 1 ≤ m && m ≤ 12 && 1 ≤ d && d ≤ daysInMonth y m

def validTime (h mi s : Nat) : Bool := h ≤ 23 && mi ≤ 59 && s ≤ 59

/-- Optional trailing UTC-offset suffix `±HH:MM` (strict bound below a day). -/
def parseOffset : List Char → Option (Option Int)
  | [] => some none
  | sign :: o1 :: o2 :: colon :: o3 :: o4 :: [] =>
    if (sign = '+' ∨ sign = '-') ∧ colon = ':' then
      match d2 o1 o2, d2 o3 o4 with
      | some oh, some om =>
        if oh ≤ 23 && om ≤ 59 then
          some (some ((if sign = '+' then (1 : Int) else -1) * (oh * 60 + om)))
        else none
      | _, _ => none
    else none
  | _ => none

/-- Time-of-day part `HH:MM[:SS]` with optional offset suffix. -/
def parseHMS : List Char → Option (Nat × Nat × Nat × Option Int)
  | h1 :: h2 :: colon :: m1 :: m2 :: rest =>
    if colon = ':' then
      match d2 h1 h2, d2 m1 m2 with
      | some h, some mi =>
        (match rest with
         | colon2 :: s1 :: s2 :: rest2 =>
           if colon2 = ':' then
             match d2 s1 s2 with
             | some s => (parseOffset rest2).map (fun tz => (h, mi, s, tz))
             | none => none
           else (parseOffset (colon2 :: s1 :: s2 :: rest2)).map (fun tz => (h, mi, 0, tz))
         | _ => (parseOffset rest).map (fun tz => (h, mi, 0, tz)))
      | _, _ => none
    else none
  | _ => none

/-- Modelled `datetime.fromisoformat` (sub-grammar, see the section note);
`none` models the `ValueError` swallowed by `parse_iso`. -/
def fromisoformatL : List Char → Option PyDateTime
  | y1 :: y2 :: y3 :: y4 :: dashA :: m1 :: m2 :: dashB :: dd1 :: dd2 :: rest =>
    if dashA = '-' ∧ dashB = '-' then
      match d4 y1 y2 y3 y4, d2 m1 m2, d2 dd1 dd2 with
      | some y, some mo, some dd =>
        if validDate y mo dd then
          match rest with
          | [] => some ⟨y, mo, dd, 0, 0, 0, none⟩
          | sep :: rest2 =>
            if sep = 'T' ∨ sep = ' ' then
              match parseHMS rest2 with
              | some (h, mi, s, tz) =>
                if validTime h mi s then some ⟨y, mo, dd, h, mi, s, tz⟩ else none
              | none => none
            else none
        else none
      | _, _, _ => none
    else none
  | _ => none

/-- `re.fullmatch` of the bare-date pattern (four digits, dash, two digits,
dash, two digits; ASCII digits per the header note). -/
def isBareDate : List Char → Bool
  | [a, b, c, d, dashA, e, f, dashB, g, h] =>
    a.isDigit && b.isDigit && c.isDigit && d.isDigit && e.isDigit && f.isDigit &&
      g.isDigit && h.isDigit && dashA = '-' && dashB = '-'
  | _ => false

/-- `_normalize_iso_z`: rewrite one trailing `Z` to `+00:00`. -/
def normalizeIsoZ (l : List Char) : List Char :=
  if l ≠ [] ∧ l.getLast? = some 'Z' then l.dropLast ++ ("+00:00").data else l

/-- Days since 1970-01-01 of a civil date (Hinnant's algorithm; all
divisions act on nonnegative operands for the years `datetime` admits). -/
def daysFromCivil (y m d : Nat) : Int :=
  let yy : Int := (y : Int) - (if m ≤ 2 then 1 else 0)
  let era : Int := (if 0 ≤ yy then yy else yy - 399) / 400
  let yoe : Int := yy - era * 400
  let mp : Int := ((m : Int) + 9) % 12
  let doy : Int := (153 * mp + 2) / 5 + (d : Int) - 1
  let doe : Int := yoe * 365 + yoe / 4 - yoe / 100 + doy
  era * 146097 + doe - 719468

/-- Civil date of a day count since 1970-01-01 (inverse of
`daysFromCivil`). -/
def civilFromDays (z0 : Int) : Nat × Nat × Nat :=
  let z : Int := z0 + 719468
  let era : Int := (if 0 ≤ z then z else z - 146096) / 146097
  let doe : Int := z - era * 146097
  let yoe : Int := (doe - doe / 1460 + doe / 36524 - doe / 146096) / 365
  let y : Int := yoe + era * 400
  let doy : Int := doe - (365 * yoe + yoe / 4 - yoe / 100)
  let mp : Int := (5 * doy + 2) / 153
  let d : Int := doy - (153 * mp + 2) / 5 + 1
  let m : Int := mp + (if mp < 10 then 3 else -9)
  ((y + (if m ≤ 2 then 1 else 0)).toNat, m.toNat, d.toNat)

/-- The wall-clock reading as seconds since the epoch, offset ignored. -/
def wallSeconds (dt : PyDateTime) : Int :=
  daysFromCivil dt.year dt.month dt.day * 86400 +
    dt.hour * 3600 + dt.minute * 60 + dt.second

/-- `dt.astimezone()` under a fixed local offset: a naive instant is taken
to be local wall time and just acquires the local offset; an aware instant
is converted (same epoch instant, local wall clock). -/
def astimezoneLocal (localOff : Int) (dt : PyDateTime) : PyDateTime :=
  match dt.tzMinutes with
  | none => { dt with tzMinutes := some localOff }
  | some z =>
    let total : Int := wallSeconds dt + (localOff - z) * 60
    let days : Int := total.fdiv 86400
    let rem : Nat := (total - days * 86400).toNat
    let ymd := civilFromDays days
    ⟨ymd.1, ymd.2.1, ymd.2.2, rem / 3600, rem % 3600 / 60, rem % 60, some localOff⟩

/-- `parse_iso` (the embedded wrapper): empty input, bare-date localization,
`Z` rewrite, and failure-to-`None` (the `except` clause is the totality of
`fromisoformatL`). -/
def parse_iso (localOff : Int) (ts : String) : Option PyDateTime :=
  if ts = "" then none
  else if isBareDate (pyStripL ts.data) then
    (fromisoformatL (pyStripL ts.data ++ ("T00:00:00").data)).map (astimezoneLocal localOff)
  else fromisoformatL (normalizeIsoZ (pyStripL ts.data))

/-- `dt.timestamp()` truncated to an integer: seconds since the UTC epoch
(a naive instant is interpreted in the local timezone; seconds are integral
on the modelled grammar, so `int(...)` truncates nothing). -/
def epochSeconds (localOff : Int) (dt : PyDateTime) : Int :=
  wallSeconds dt - 60 * (dt.tzMinutes.getD localOff)

/-- `to_epoch`: `None` in, `None` out; otherwise integer epoch seconds. -/
def to_epoch (localOff : Int) : Option PyDateTime → Option Int
  | none => none
  | some dt => some (epochSeconds localOff dt)

/-! ## Claim C9: timestamp parsing by cases -/

lemma d4_digits {a b c d : Char} {y : Nat} (h : d4 a b c d = some y) :
    (a.isDigit && b.isDigit && c.isDigit && d.isDigit) = true := by
  by_cases hc : (a.isDigit && b.isDigit && c.isDigit && d.isDigit) = true
  · exact hc
  · rw [d4, if_neg hc] at h
    cases h

lemma d2_digits {a b : Char} {y : Nat} (h : d2 a b = some y) :
    (a.isDigit && b.isDigit) = true := by
  by_cases hc : (a.isDigit && b.isDigit) = true
  · exact hc
  · rw [d2, if_neg hc] at h
    cases h

/-- **C9.**  Timestamp parsing is total (`Option`-valued) and defined by
cases: whitespace-only input (including empty) yields `none`; a bare
`YYYY-MM-DD` yields local midnight of that date as an aware instant when the
calendar date is valid, and `none` otherwise; a trailing `Z` (in the
non-bare path) is rewritten to `+00:00` before the modelled ISO parse; and
`to_epoch` maps `none` to `none` and an instant to integer seconds since the
UTC epoch (a naive instant read with the local offset). -/
theorem C9_timestamp_parsing (off : Int) (ts : String) :
    (pyStripL ts.data = [] → parse_iso off ts = none) ∧
    (∀ a b c d e f g h : Char, ts ≠ "" →
      pyStripL ts.data = [a, b, c, d, '-', e, f, '-', g, h] →
      ∀ y mo dd, d4 a b c d = some y → d2 e f = some mo → d2 g h = some dd →
        parse_iso off ts =
          if validDate y mo dd then some ⟨y, mo, dd, 0, 0, 0, some off⟩ else none) ∧
    (ts ≠ "" → isBareDate (pyStripL ts.data) = false →
      (pyStripL ts.data).getLast? = some 'Z' →
      parse_iso off ts = fromisoformatL ((pyStripL ts.data).dropLast ++ ("+00:00").data)) ∧
    to_epoch off none = none ∧
    (∀ dt : PyDateTime, to_epoch off (some dt) =
      some (wallSeconds dt - 60 * (dt.tzMinutes.getD off))) := by
  refine ⟨?_, ?_, ?_, rfl, fun dt => rfl⟩
  · intro h
    by_cases hts : ts = ""
    · rw [parse_iso, if_pos hts]
    · rw [parse_iso, if_neg hts, h]
      simp [isBareDate, normalizeIsoZ, fromisoformatL]
  · intro a b c d e f g h hts hstrip y mo dd hy hmo hdd
    have hd1 := d4_digits hy
    have hd2 := d2_digits hmo
    have hd3 := d2_digits hdd
    have hbare : isBareDate [a, b, c, d, '-', e, f, '-', g, h] = true := by
      simp only [isBareDate, Bool.and_eq_true] at hd1 hd2 hd3 ⊢
      simp [hd1.1, hd1.2, hd2.1, hd2.2, hd3.1, hd3.2]
    rw [parse_iso, if_neg hts, hstrip, if_pos hbare]
    have happ : ([a, b, c, d, '-', e, f, '-', g, h] ++ ("T00:00:00").data)
        = a :: b :: c :: d :: '-' :: e :: f :: '-' :: g :: h :: 'T' :: ("00:00:00").data := rfl
    rw [happ]
    by_cases hv : validDate y mo dd = true
    · have hhms : parseHMS ("00:00:00").data = some (0, 0, 0, none) := by decide
      simp [fromisoformatL, hy, hmo, hdd, hv, hhms, validTime, astimezoneLocal]
    · simp [fromisoformatL, hy, hmo, hdd, hv]
  · intro hts hnotbare hz
    rw [parse_iso, if_neg hts, if_neg (by rw [hnotbare]; simp)]
    have hne : pyStripL ts.data ≠ [] := by
      intro he
      rw [he] at hz
      cases hz
    rw [normalizeIsoZ, if_pos ⟨hne, hz⟩]

/-- **C9, witness.**  The case equations applied at concrete inputs: a bare
date under a +05:30 local offset, a `Z`-suffixed timestamp, and an epoch
conversion. -/
theorem C9_witness :
    parse_iso 330 "2023-01-15" =
      some { year := 2023, month := 1, day := 15, hour := 0, minute := 0,
             second := 0, tzMinutes := some 330 } ∧
    parse_iso 0 "2023-01-15T10:30:45Z" =
      fromisoformatL (("2023-01-15T10:30:45").data ++ ("+00:00").data) ∧
    to_epoch 0 (some { year := 2023, month := 1, day := 15, hour := 10,
                       minute := 30, second := 45, tzMinutes := some 0 }) =
      some 1673778645 :=
  ⟨((C9_timestamp_parsing 330 "2023-01-15").2.1 '2' '0' '2' '3' '0' '1' '1' '5'
      (by decide) (by decide) 2023 1 15 (by decide) (by decide) (by decide)).trans
      (by decide),
   ((C9_timestamp_parsing 0 "2023-01-15T10:30:45Z").2.2.1 (by decide) (by decide)
      (by decide)).trans (congrArg fromisoformatL (by decide)),
   ((C9_timestamp_parsing 0 "x").2.2.2.2
      { year := 2023, month := 1, day := 15, hour := 10, minute := 30,
        second := 45, tzMinutes := some 0 }).trans (congrArg some (by decide))⟩

/-! ## Path ordering

Python compares `Path` objects componentwise (tuples of strings compared
lexicographically, strings by code point).  `pathLt` embeds that order on
the relative path strings of the store model. -/

/-- Strict code-point lexicographic order on character lists. -/
def lexCL : List Char → List Char → Bool
  | [], [] => false
  | [], _ :: _ => true
  | _ :: _, [] => false
  | a :: as, b :: bs => if a < b then true else if b < a then false else lexCL as bs

lemma lexCL_irrefl : ∀ l : List Char, lexCL l l = false := by
  intro l
  induction l with
  | nil => rfl
  | cons a as ih => simp [lexCL, lt_irrefl, ih]

lemma lexCL_asymm : ∀ {a b : List Char}, lexCL a b = true → lexCL b a = false := by
  intro a
  induction a with
  | nil =>
    intro b h
    cases b with
    | nil => cases h
    | cons x xs => rfl
  | cons x xs ih =>
    intro b h
    cases b with
    | nil => cases h
    | cons y ys =>
      by_cases hxy : x < y
      · have hyx : ¬ y < x := asymm hxy
        simp [lexCL, hyx, hxy]
      · by_cases hyx : y < x
        · simp [lexCL, hxy, hyx] at h
        · simp only [lexCL, if_neg hxy, if_neg hyx] at h
          simp [lexCL, hxy, hyx, ih h]

lemma lexCL_eq_of_not_lt : ∀ {a b : List Char},
    lexCL a b = false → lexCL b a = false → a = b := by
  intro a
  induction a with
  | nil =>
    intro b h1 _
    cases b with
    | nil => rfl
    | cons y ys => cases h1
  | cons x xs ih =>
    intro b h1 h2
    cases b with
    | nil => cases h2
    | cons y ys =>
      by_cases hxy : x < y
      · simp [lexCL, hxy] at h1
      · by_cases hyx : y < x
        · simp [lexCL, hyx] at h2
        · simp only [lexCL, if_neg hxy, if_neg hyx] at h1 h2
          rw [le_antisymm (not_lt.mp hyx) (not_lt.mp hxy), ih h1 h2]

lemma lexCL_trans : ∀ {a b c : List Char},
    lexCL a b = true → lexCL b c = true → lexCL a c = true := by
  intro a
  induction a with
  | nil =>
    intro b c h1 h2
    cases b with
    | nil => cases h1
    | cons y ys =>
      cases c with
      | nil => cases h2
      | cons z zs => rfl
  | cons x xs ih =>
    intro b c h1 h2
    cases b with
    | nil => cases h1
    | cons y ys =>
      cases c with
      | nil => cases h2
      | cons z zs =>
        rcases lt_trichotomy x y with hxy | hxy | hxy
        · rcases lt_trichotomy y z with hyz | hyz | hyz
          · simp [lexCL, lt_trans hxy hyz]
          · subst hyz
            simp [lexCL, hxy]
          · simp [lexCL, asymm hyz, hyz] at h2
        · subst hxy
          simp only [lexCL, lt_irrefl, if_neg, if_false] at h1
          rcases lt_trichotomy x z with hxz | hxz | hxz
          · simp [lexCL, hxz]
          · subst hxz
            simp only [lexCL, lt_irrefl, if_neg, if_false] at h2 ⊢
            exact ih h1 h2
          · simp [lexCL, asymm hxz, hxz] at h2
        · simp [lexCL, asymm hxy, hxy] at h1

/-- Strict lexicographic order on component lists. -/
def lexLL : List (List Char) → List (List Char) → Bool
  | [], [] => false
  | [], _ :: _ => true
  | _ :: _, [] => false
  | a :: as, b :: bs => if lexCL a b then true else if lexCL b a then false else lexLL as bs

lemma lexLL_asymm : ∀ {a b : List (List Char)}, lexLL a b = true → lexLL b a = false := by
  intro a
  induction a with
  | nil =>
    intro b h
    cases b with
    | nil => cases h
    | cons x xs => rfl
  | cons x xs ih =>
    intro b h
    cases b with
    | nil => cases h
    | cons y ys =>
      by_cases hxy : lexCL x y = true
      · have hyx : lexCL y x = false := lexCL_asymm hxy
        simp [lexLL, hxy, hyx]
      · by_cases hyx : lexCL y x = true
        · simp [lexLL, hxy, hyx] at h
        · simp only [lexLL, hxy, hyx, if_false, Bool.false_eq_true, if_neg] at h
          simp [lexLL, hxy, hyx, ih h]

lemma lexLL_eq_of_not_lt : ∀ {a b : List (List Char)},
    lexLL a b = false → lexLL b a = false → a = b := by
  intro a
  induction a with
  | nil =>
    intro b h1 _
    cases b with
    | nil => rfl
    | cons y ys => cases h1
  | cons x xs ih =>
    intro b h1 h2
    cases b with
    | nil => cases h2
    | cons y ys =>
      by_cases hxy : lexCL x y = true
      · simp [lexLL, hxy] at h1
      · by_cases hyx : lexCL y x = true
        · simp [lexLL, hyx] at h2
        · simp only [lexLL, hxy, hyx, if_false, Bool.false_eq_true, if_neg] at h1 h2
          rw [lexCL_eq_of_not_lt (Bool.eq_false_iff.mpr hxy) (Bool.eq_false_iff.mpr hyx),
            ih h1 h2]

lemma lexLL_trans : ∀ {a b c : List (List Char)},
    lexLL a b = true → lexLL b c = true → lexLL a c = true := by
  intro a
  induction a with
  | nil =>
    intro b c h1 h2
    cases b with
    | nil => cases h1
    | cons y ys =>
      cases c with
      | nil => cases h2
      | cons z zs => rfl
  | cons x xs ih =>
    intro b c h1 h2
    cases b with
    | nil => cases h1
    | cons y ys =>
      cases c with
      | nil => cases h2
      | cons z zs =>
        by_cases hxy : lexCL x y = true
        · by_cases hyz : lexCL y z = true
          · simp [lexLL, lexCL_trans hxy hyz]
          · by_cases hzy : lexCL z y = true
            · simp [lexLL, hyz, hzy] at h2
            · have hk : y = z :=
                lexCL_eq_of_not_lt (Bool.eq_false_iff.mpr hyz) (Bool.eq_false_iff.mpr hzy)
              subst hk
              simp [lexLL, hxy]
        · by_cases hyx : lexCL y x = true
          · simp [lexLL, hxy, hyx] at h1
          · have hk : x = y :=
              lexCL_eq_of_not_lt (Bool.eq_false_iff.mpr hxy) (Bool.eq_false_iff.mpr hyx)
            subst hk
            simp only [lexLL, hxy, hyx, if_false, Bool.false_eq_true, if_neg] at h1
            by_cases hxz : lexCL x z = true
            · simp [lexLL, hxz]
            · by_cases hzx : lexCL z x = true
              · simp [lexLL, hxz, hzx] at h2
              · have hk2 : x = z :=
                  lexCL_eq_of_not_lt (Bool.eq_false_iff.mpr hxz) (Bool.eq_false_iff.mpr hzx)
                subst hk2
                simp only [lexLL, hxz, hzx, if_false, Bool.false_eq_true, if_neg] at h2 ⊢
                exact ih h1 h2

/-- Python `Path` order: componentwise lexicographic. -/
def pathLt (a b : String) : Bool :=
  lexLL (splitOnCL '/' a.data) (splitOnCL '/' b.data)

/-- Non-strict path order. -/
def pathLe (a b : String) : Bool := ! pathLt b a

def pathLeP (a b : String) : Prop := pathLe a b = true

instance : DecidableRel pathLeP := fun _ _ => instDecidableEqBool _ _

instance : IsTotal String pathLeP :=
  ⟨by
    intro a b
    by_cases h : pathLt b a = true
    · right
      simp only [pathLeP, pathLe, Bool.not_eq_true']
      exact lexLL_asymm h
    · left
      simp only [pathLeP, pathLe, Bool.not_eq_true']
      exact Bool.eq_false_iff.mpr h⟩

instance : IsTrans String pathLeP :=
  ⟨by
    intro a b c h1 h2
    simp only [pathLeP, pathLe, Bool.not_eq_true', pathLt] at h1 h2 ⊢
    by_contra hca
    rw [Bool.not_eq_false] at hca
    by_cases hab : lexLL (splitOnCL '/' a.data) (splitOnCL '/' b.data) = true
    · exact absurd (lexLL_trans hca hab) (Bool.eq_false_iff.mp h2)
    · have hk := lexLL_eq_of_not_lt (Bool.eq_false_iff.mpr hab) h1
      rw [← hk] at h2
      exact absurd hca (Bool.eq_false_iff.mp h2)⟩

/-- `sorted(...)` on store paths. -/
def sortedPaths (l : List String) : List String := List.insertionSort pathLeP l

lemma pathLe_refl (a : String) : pathLe a a = true := by
  have h : pathLt a a = false := by
    by_cases h : pathLt a a = true
    · exact absurd h (Bool.eq_false_iff.mp (lexLL_asymm h))
    · exact Bool.eq_false_iff.mpr h
  simp [pathLe, h]

/-- The head of the sorted candidate list is a least element. -/
lemma sortedPaths_head_min (l : List String) {m : String}
    (h : (sortedPaths l).head? = some m) :
    m ∈ l ∧ ∀ p ∈ l, pathLe m p = true := by
  have hperm := List.perm_insertionSort pathLeP l
  have hsorted := List.sorted_insertionSort pathLeP l
  rw [show List.insertionSort pathLeP l = sortedPaths l from rfl] at hperm hsorted
  rcases hs : sortedPaths l with _ | ⟨x, rest⟩
  · rw [hs] at h
    cases h
  · rw [hs] at h hperm hsorted
    simp only [List.head?_cons, Option.some.injEq] at h
    subst h
    constructor
    · exact hperm.subset (List.mem_cons_self _ _)
    · intro p hp
      rcases List.mem_cons.mp (hperm.symm.subset hp) with rfl | hp3
      · exact pathLe_refl p
      · exact (List.sorted_cons.mp hsorted).1 p hp3

/-! ## Entry resolver (`old_bkmrk.py` lines 266–291, `bm/commands.py`
lines 445–471)

The store is the result of `store.rglob("*.bm")` in enumeration order: a
list of (relative path, file content) pairs.  A real filesystem yields
distinct paths; theorems that need distinctness take it as a hypothesis or
hold without it.  `ridF` abstracts `rid` (a 6-byte `blake2b` hex digest of
the URL — an external hash primitive, see the header note). -/

abbrev Store := List (String × String)

instance {α : Type} [DecidableEq α] : DecidableEq (Except DieErr α)
  | .error a, .error b => decidable_of_iff (a = b) (by simp)
  | .error _, .ok _ => isFalse (by simp)
  | .ok _, .error _ => isFalse (by simp)
  | .ok a, .ok b => decidable_of_iff (a = b) (by simp)

/-- `path.exists()` relative to the store root. -/
def storeHasPath (st : Store) (p : String) : Bool := st.any (fun e => e.1 = p)

/-- `Path(p).name`: the part after the last slash. -/
def lastComponent (p : String) : String :=
  ⟨(p.data.reverse.takeWhile (fun c => ¬ c = '/')).reverse⟩

/-- `PurePath.stem` on a file name: strip the part from the last dot,
unless the only dot starts the name. -/
def stemL (name : List Char) : List Char :=
  if (name.reverse.dropLast).contains '.' then
    ((name.reverse.dropWhile (fun c => ¬ c = '.')).tail).reverse
  else name

/-- `Path(p).stem`. -/
def stemOf (p : String) : String := ⟨stemL (lastComponent p).data⟩

/-- The relative form of `id_to_path` (the store-root prefix dropped);
`id_to_path store slug = store ++ "/" ++ ·` of this. -/
def id_to_path_rel (slug : String) : Except DieErr String :=
  match _reject_unsafe (normalize_slug slug) with
  | .error e => .error e
  | .ok cleaned => .ok (cleaned ++ ".bm")

/-- `meta.get("url", "")` (decode only ever stores `url` as a string). -/
def urlOfMeta (m : Meta) : String :=
  match lookupV m "url" with
  | some (.vs u) => u
  | _ => ""

/-- The ID-scan pass of `resolve_id_or_path`: the first entry file, in
enumeration order, whose nonempty URL hashes to the token. -/
def resolveIdScan (ridF : String → String) (st : Store) (tok : String) : Option String :=
  (st.find? (fun e => urlOfMeta (parse_front_matter e.2).1 ≠ "" &&
      ridF (urlOfMeta (parse_front_matter e.2).1) = tok)).map Prod.fst

/-- The fuzzy candidate set: entry files whose stem ends with the needle's
last path component, in enumeration order. -/
def fuzzyHits (st : Store) (cleaned : String) : List String :=
  (st.map Prod.fst).filter
    (fun p => (lastComponent cleaned).data.isSuffixOf (stemOf p).data)

namespace Commands

/-- `bm/commands.py::find_candidates`: exact path if it exists, else the
fuzzy candidates sorted (`return sorted(hits)`). -/
def find_candidates (st : Store) (needle : String) : Except DieErr (List String) :=
  match _reject_unsafe (normalize_slug needle) with
  | .error e => .error e
  | .ok cleaned =>
    match id_to_path_rel cleaned with
    | .error e => .error e
    | .ok exact =>
      if storeHasPath st exact then .ok [exact]
      else .ok (sortedPaths (fuzzyHits st cleaned))

/-- `bm/commands.py::resolve_id_or_path`: strip the token, try the ID scan
over every entry file, then fall back to `find_candidates` and take its
first hit. -/
def resolve_id_or_path (ridF : String → String) (st : Store) (token : String) :
    Except DieErr (Option String) :=
  match resolveIdScan ridF st (pyStrip token) with
  | some p => .ok (some p)
  | none =>
    match find_candidates st (pyStrip token) with
    | .error e => .error e
    | .ok hits => .ok hits.head?

end Commands

namespace OldBkmrk

/-- `old_bkmrk.py::find_candidates`: identical to the package version
except the fuzzy hits are returned in bare enumeration order (no sort). -/
def find_candidates (st : Store) (needle : String) : Except DieErr (List String) :=
  match _reject_unsafe (normalize_slug needle) with
  | .error e => .error e
  | .ok cleaned =>
    match id_to_path_rel cleaned with
    | .error e => .error e
    | .ok exact =>
      if storeHasPath st exact then .ok [exact]
      else .ok (fuzzyHits st cleaned)

/-- `old_bkmrk.py::resolve_id_or_path`. -/
def resolve_id_or_path (ridF : String → String) (st : Store) (token : String) :
    Except DieErr (Option String) :=
  match resolveIdScan ridF st (pyStrip token) with
  | some p => .ok (some p)
  | none =>
    match find_candidates st (pyStrip token) with
    | .error e => .error e
    | .ok hits => .ok hits.head?

end OldBkmrk

/-! ## Claim C1: order of resolution strategies -/

/-- The URL-hash used by the C1 counterexample, agreeing with the real
`blake2b(b"https://e.com", digest_size=6).hexdigest()` on the one URL the
store contains. -/
def ridC1 : String → String :=
  fun u => if u = "https://e.com" then "61887fd73a1e" else ""

/-- A store holding an entry `a.bm` whose URL hashes to the token, and a
file whose name is exactly the token. -/
def storeC1 : Store :=
  [("a.bm", "---\nurl: https://e.com\n---\n"),
   ("61887fd73a1e.bm", "---\ntitle: t\n---\n")]

/-- **C1, counterexample.**  The exact-path file `<store>/<token>.bm`
exists, yet resolution returns the other entry: the stable-ID scan runs
first, not the exact-path strategy. -/
theorem C1_counterexample :
    storeHasPath storeC1 "61887fd73a1e.bm" = true ∧
    id_to_path_rel "61887fd73a1e" = .ok "61887fd73a1e.bm" ∧
    Commands.resolve_id_or_path ridC1 storeC1 "61887fd73a1e" = .ok (some "a.bm") ∧
    OldBkmrk.resolve_id_or_path ridC1 storeC1 "61887fd73a1e" = .ok (some "a.bm") ∧
    ("a.bm" : String) ≠ "61887fd73a1e.bm" := by
  refine ⟨by decide, by decide, ?_, ?_, by decide⟩ <;> decide

/-- **C1, amended.**  The resolver runs the stable-ID scan first and
consults the exact-path (and fuzzy) strategies only when no entry's URL
hashes to the token: an ID hit wins even when `<store>/<token>.bm` exists,
and the exact path is returned exactly when the scan found nothing and the
file exists. -/
theorem C1_resolver_order_amended (ridF : String → String) (st : Store) (tok : String) :
    (∀ p, resolveIdScan ridF st (pyStrip tok) = some p →
      Commands.resolve_id_or_path ridF st tok = .ok (some p)) ∧
    (∀ cleaned exact, resolveIdScan ridF st (pyStrip tok) = none →
      _reject_unsafe (normalize_slug (pyStrip tok)) = .ok cleaned →
      id_to_path_rel cleaned = .ok exact →
      storeHasPath st exact = true →
      Commands.resolve_id_or_path ridF st tok = .ok (some exact)) := by
  constructor
  · intro p hp
    rw [Commands.resolve_id_or_path, hp]
  · intro cleaned exact hscan hclean hexact hhas
    have hfc : Commands.find_candidates st (pyStrip tok) = .ok [exact] := by
      simp [Commands.find_candidates, hclean, hexact, hhas]
    simp [Commands.resolve_id_or_path, hscan, hfc]

/-- **C1, witness.**  Both branches of the amended theorem at concrete
stores: the ID hit beating the exact path in `storeC1`, and a pure
exact-path resolution in a store with no URL hashing to the token. -/
theorem C1_witness :
    Commands.resolve_id_or_path ridC1 storeC1 "61887fd73a1e" = .ok (some "a.bm") ∧
    Commands.resolve_id_or_path (fun _ => "") [("b.bm", "x")] "b" = .ok (some "b.bm") :=
  ⟨(C1_resolver_order_amended ridC1 storeC1 "61887fd73a1e").1 "a.bm" (by decide),
   (C1_resolver_order_amended (fun _ => "") [("b.bm", "x")] "b").2 "b" "b.bm"
     (by decide) (by decide) (by decide) (by decide)⟩

/-! ## Claim C6: determinism of tie-breaking -/

lemma find?_eq_head?_filter {α : Type} (p : α → Bool) (l : List α) :
    l.find? p = (l.filter p).head? := by
  induction l with
  | nil => rfl
  | cons x rest ih =>
    by_cases hx : p x
    · rw [List.find?_cons_of_pos _ hx, List.filter_cons_of_pos hx, List.head?_cons]
    · rw [List.find?_cons_of_neg _ (by simpa using hx),
        List.filter_cons_of_neg (by simpa using hx), ih]

/-- The URL-hash used by the C6 counterexample, agreeing with the real
`blake2b(b"https://d.com", digest_size=6).hexdigest()`. -/
def ridC6 : String → String :=
  fun u => if u = "https://d.com" then "d54fe8d7a6a4" else ""

/-- Two entries with the same URL, enumerated with `b.bm` first. -/
def storeC6 : Store :=
  [("b.bm", "---\nurl: https://d.com\n---\n"),
   ("a.bm", "---\nurl: https://d.com\n---\n")]

/-- The same two entries in the opposite enumeration order. -/
def storeC6rev : Store :=
  [("a.bm", "---\nurl: https://d.com\n---\n"),
   ("b.bm", "---\nurl: https://d.com\n---\n")]

/-- A fuzzy-resolution store enumerated against lexicographic order. -/
def storeC6f : Store := [("zz-t.bm", "x"), ("aa-t.bm", "y")]

/-- **C6, counterexample.**  Resolution is not independent of the
directory-enumeration order: with two entries sharing a URL, the ID scan
returns whichever the enumeration lists first (`b.bm` in one order,
`a.bm` in the other), not the lexicographically-first; and the old-module
fuzzy strategy returns the first hit in enumeration order (`zz-t.bm`),
not the lexicographically-first (`aa-t.bm`). -/
theorem C6_counterexample :
    Commands.resolve_id_or_path ridC6 storeC6 "d54fe8d7a6a4" = .ok (some "b.bm") ∧
    Commands.resolve_id_or_path ridC6 storeC6rev "d54fe8d7a6a4" = .ok (some "a.bm") ∧
    pathLt "a.bm" "b.bm" = true ∧
    OldBkmrk.resolve_id_or_path (fun _ => "") storeC6f "t" = .ok (some "zz-t.bm") ∧
    pathLt "aa-t.bm" "zz-t.bm" = true := by
  refine ⟨?_, ?_, ?_, ?_, ?_⟩ <;> decide

/-- **C6, amended.**  The ID scan returns the first match in
directory-enumeration order (which need not be lexicographic).  When the
scan found nothing and no exact-path file exists, the package resolver
returns the head of the sorted fuzzy candidates — a lexicographically
least hit — while the old-module resolver returns the first fuzzy hit in
enumeration order. -/
theorem C6_resolution_order_amended (ridF : String → String) (st : Store) (tok : String) :
    (resolveIdScan ridF st (pyStrip tok) =
      ((st.filter (fun e => urlOfMeta (parse_front_matter e.2).1 ≠ "" &&
          ridF (urlOfMeta (parse_front_matter e.2).1) = pyStrip tok)).head?).map Prod.fst) ∧
    (∀ cleaned exact,
      resolveIdScan ridF st (pyStrip tok) = none →
      _reject_unsafe (normalize_slug (pyStrip tok)) = .ok cleaned →
      id_to_path_rel cleaned = .ok exact →
      storeHasPath st exact = false →
      Commands.resolve_id_or_path ridF st tok =
          .ok (sortedPaths (fuzzyHits st cleaned)).head? ∧
        OldBkmrk.resolve_id_or_path ridF st tok = .ok (fuzzyHits st cleaned).head? ∧
        ∀ m, (sortedPaths (fuzzyHits st cleaned)).head? = some m →
          m ∈ fuzzyHits st cleaned ∧ ∀ p ∈ fuzzyHits st cleaned, pathLe m p = true) := by
  constructor
  · rw [resolveIdScan, find?_eq_head?_filter]
  · intro cleaned exact hscan hclean hexact hhas
    have hfc : Commands.find_candidates st (pyStrip tok) =
        .ok (sortedPaths (fuzzyHits st cleaned)) := by
      simp [Commands.find_candidates, hclean, hexact, hhas]
    have hfo : OldBkmrk.find_candidates st (pyStrip tok) = .ok (fuzzyHits st cleaned) := by
      simp [OldBkmrk.find_candidates, hclean, hexact, hhas]
    refine ⟨?_, ?_, fun m hm => sortedPaths_head_min _ hm⟩
    · simp [Commands.resolve_id_or_path, hscan, hfc]
    · simp [OldBkmrk.resolve_id_or_path, hscan, hfo]

/-- **C6, witness.**  The amended theorem at the concrete fuzzy store:
the package resolver returns the sorted head (`aa-t.bm`), which is a
member of the hits and least among them. -/
theorem C6_witness :
    Commands.resolve_id_or_path (fun _ => "") storeC6f "t" =
        .ok (sortedPaths (fuzzyHits storeC6f "t")).head? ∧
      ("aa-t.bm" ∈ fuzzyHits storeC6f "t" ∧
        ∀ p ∈ fuzzyHits storeC6f "t", pathLe "aa-t.bm" p = true) :=
  ⟨(((C6_resolution_order_amended (fun _ => "") storeC6f "t").2 "t" "t.bm"
      (by decide) (by decide) (by decide) (by decide))).1,
   (((C6_resolution_order_amended (fun _ => "") storeC6f "t").2 "t" "t.bm"
      (by decide) (by decide) (by decide) (by decide))).2.2 "aa-t.bm" (by decide)⟩

/-! ## Claim C2: the encode/decode round trip

The well-formedness predicates below describe the metadata maps and bodies
a prior decode produces, strengthened exactly as the counterexample forces:
values nonempty and not ending in three hyphens, tags free of quote
characters, body without a leading newline. -/

/-- A well-formed single-line string value: stripped, nonempty, free of
line breaks, not ending in `---`. -/
def wfValStr (s : String) : Prop :=
  pyStripL s.data = s.data ∧ s.data ≠ [] ∧
    (∀ c ∈ s.data, pyIsLineBreak c = false) ∧
    (['-', '-', '-'].isSuffixOf s.data) = false

/-- A well-formed tag: stripped, nonempty, free of line breaks and of the
quote characters the bracket scanner discards. -/
def wfTag (t : String) : Prop :=
  pyStripL t.data = t.data ∧ t.data ≠ [] ∧
    (∀ c ∈ t.data, pyIsLineBreak c = false) ∧
    '"' ∉ t.data ∧ '\'' ∉ t.data

/-- A well-formed key: stripped, lowercase, free of line breaks and colons,
not starting with the comment mark. -/
def wfKey (k : String) : Prop :=
  pyStripL k.data = k.data ∧ (∀ c ∈ k.data, pyIsLineBreak c = false) ∧
    ':' ∉ k.data ∧ k.data.head? ≠ some '#' ∧ lowerAscii k.data = k.data

/-- Well-formed metadata: unique keys, well-formed keys, string values on
every key but `tags`, a list-valued `tags` of well-formed tags, and the
legacy-key co-presence a prior normalization guarantees. -/
def WFMeta (m : Meta) : Prop :=
  (m.map Prod.fst).Nodup ∧
  (∀ kv ∈ m, wfKey kv.1) ∧
  (∀ kv ∈ m, kv.1 ≠ "tags" → ∃ s, kv.2 = Val.vs s ∧ wfValStr s) ∧
  (∃ ts, lookupV m "tags" = some (Val.vl ts) ∧ ∀ t ∈ ts, wfTag t) ∧
  (containsKey m "added" = true → containsKey m "created" = true) ∧
  (containsKey m "updated" = true → containsKey m "modified" = true)

/-- The tag-list joint of the rendered `tags` line, recursively. -/
def fmtJoinL : List String → List Char
  | [] => []
  | t :: rest =>
    if rest.isEmpty then (_fmt_tag t).data
    else (_fmt_tag t).data ++ (", ").data ++ fmtJoinL rest

lemma intercalate_eq_fmtJoinL (ts : List String) :
    List.intercalate (", ").data (ts.map (fun t => (_fmt_tag t).data)) = fmtJoinL ts := by
  induction ts with
  | nil => rfl
  | cons t rest ih =>
    cases rest with
    | nil => simp [fmtJoinL, List.intercalate]
    | cons t2 r2 =>
      rw [fmtJoinL, if_neg (by simp), ← ih]
      simp [List.intercalate, List.intersperse]

/-- The rendered header line body, without its terminating newline. -/
def renderCore (k : String) (v : Val) : List Char :=
  match v with
  | .vl ts => k.data ++ (": [").data ++ fmtJoinL ts ++ [']']
  | .vs s => k.data ++ [':', ' '] ++ s.data
  | .vnone => k.data ++ [':', ' '] ++ ("None").data

lemma renderKV_eq_core (k : String) (v : Val)
    (h : ∀ c ∈ (strOfVal v).data, pyIsLineBreak c = false) :
    renderKV k v = renderCore k v ++ ['\n'] := by
  match v with
  | .vl ts =>
    rw [renderKV, renderCore, intercalate_eq_fmtJoinL]
    simp
  | .vs s =>
    have hnn : ('\n' : Char) ∉ s.data := by
      intro hc
      have := h '\n' hc
      simp [pyIsLineBreak] at this
    have hcont : s.data.contains '\n' = false := by
      simpa using hnn
    rw [renderKV, renderCore, renderStrLine,
      if_neg (by rw [hcont]; exact Bool.false_ne_true)]
  | .vnone =>
    have hcont : ("None").data.contains '\n' = false := by decide
    rw [renderKV, renderCore, renderStrLine,
      if_neg (by rw [hcont]; exact Bool.false_ne_true)]

lemma mem_fmt_tag {c : Char} {t : String} (h : c ∈ (_fmt_tag t).data) :
    c ∈ t.data ∨ c = '"' := by
  rw [_fmt_tag] at h
  split at h
  · rw [String.data_append, String.data_append] at h
    rcases List.mem_append.mp h with h | h
    · rcases List.mem_append.mp h with h | h
      · right
        simpa using h
      · exact Or.inl h
    · right
      simpa using h
  · exact Or.inl h

lemma mem_fmtJoinL {c : Char} :
    ∀ {ts : List String}, c ∈ fmtJoinL ts →
      (∃ t ∈ ts, c ∈ t.data) ∨ c = '"' ∨ c = ',' ∨ c = ' ' := by
  intro ts
  induction ts with
  | nil => intro h; cases h
  | cons t rest ih =>
    intro h
    cases rest with
    | nil =>
      rcases mem_fmt_tag h with h | h
      · exact Or.inl ⟨t, List.mem_cons_self _ _, h⟩
      · exact Or.inr (Or.inl h)
    | cons t2 r2 =>
      rw [fmtJoinL, if_neg (by simp)] at h
      rcases List.mem_append.mp h with h | h
      · rcases List.mem_append.mp h with h | h
        · rcases mem_fmt_tag h with h | h
          · exact Or.inl ⟨t, List.mem_cons_self _ _, h⟩
          · exact Or.inr (Or.inl h)
        · have hsep : c = ',' ∨ c = ' ' := by simpa using h
          rcases hsep with h | h
          · exact Or.inr (Or.inr (Or.inl h))
          · exact Or.inr (Or.inr (Or.inr h))
      · rcases ih h with ⟨t3, ht3, hc⟩ | h
        · exact Or.inl ⟨t3, List.mem_cons_of_mem _ ht3, hc⟩
        · exact Or.inr h

lemma head?_append_left {α : Type} (a b : List α) (h : a ≠ []) :
    (a ++ b).head? = a.head? := by
  cases a with
  | nil => exact absurd rfl h
  | cons c r => simp

lemma getLast?_append_right {α : Type} (x d : List α) (h : d ≠ []) :
    (x ++ d).getLast? = d.getLast? := by
  rw [← List.head?_reverse, List.reverse_append,
    head?_append_left _ _ (by simpa using h), List.head?_reverse]

lemma head_not_p_of_stripBoth_eq {p : Char → Bool} {l : List Char}
    (h : stripBothL p l = l) {a : Char} (ha : l.head? = some a) : p a = false := by
  by_contra hp
  rw [Bool.not_eq_false] at hp
  rcases l with _ | ⟨c, rest⟩
  · cases ha
  · simp only [List.head?_cons, Option.some.injEq] at ha
    rw [← ha] at hp
    have h1 : (c :: rest).dropWhile p = rest.dropWhile p := List.dropWhile_cons_of_pos hp
    have h2 : (stripBothL p (c :: rest)).length ≤ rest.length := by
      rw [stripBothL, h1]
      calc (dropTrailing p (rest.dropWhile p)).length
          ≤ (rest.dropWhile p).length := (isPrefix_dropTrailing p _).sublist.length_le
        _ ≤ rest.length := (List.dropWhile_sublist p).length_le
    rw [h] at h2
    simp at h2

lemma getLast_not_p_of_stripBoth_eq {p : Char → Bool} {l : List Char}
    (h : stripBothL p l = l) {a : Char} (ha : l.getLast? = some a) : p a = false := by
  by_contra hp
  rw [Bool.not_eq_false] at hp
  have hlne : l ≠ [] := by rintro rfl; cases ha
  rcases hd : l.dropWhile p with _ | ⟨c, rest⟩
  · have : stripBothL p l = [] := by rw [stripBothL, hd]; rfl
    rw [h] at this
    exact hlne this
  · have hdne : l.dropWhile p ≠ [] := by rw [hd]; simp
    have hsuffix : ∃ pre, pre ++ l.dropWhile p = l := (List.dropWhile_suffix p : _)
    rcases hsuffix with ⟨pre, hpre⟩
    have hlast : (l.dropWhile p).getLast? = some a := by
      rw [← hpre] at ha
      rw [← getLast?_append_right pre _ hdne]
      exact ha
    have hrev : (l.dropWhile p).reverse.head? = some a := by
      rw [List.head?_reverse]
      exact hlast
    rcases hrd : (l.dropWhile p).reverse with _ | ⟨b, rrest⟩
    · rw [hrd] at hrev; cases hrev
    · rw [hrd] at hrev
      simp only [List.head?_cons, Option.some.injEq] at hrev
      subst hrev
      have hdrop : (l.dropWhile p).reverse.dropWhile p = rrest.dropWhile p := by
        rw [hrd]
        exact List.dropWhile_cons_of_pos hp
      have h2 : (stripBothL p l).length ≤ rrest.length := by
        rw [stripBothL, dropTrailing, hdrop]
        calc (rrest.dropWhile p).reverse.length
            = (rrest.dropWhile p).length := List.length_reverse _
          _ ≤ rrest.length := (List.dropWhile_sublist p).length_le
      rw [h] at h2
      have h3 : (l.dropWhile p).length ≤ l.length := (List.dropWhile_sublist p).length_le
      have h4 : (l.dropWhile p).length = rrest.length + 1 := by
        have h5 := congrArg List.length hrd
        simp at h5
        omega
      omega

lemma pyIsSpace_colon : pyIsSpace ':' = false := by decide

lemma pyStripL_core (k : String) (hk : pyStripL k.data = k.data)
    (tail : List Char) (hlast : ∀ a, tail.getLast? = some a → pyIsSpace a = false)
    (htne : tail ≠ []) :
    pyStripL (k.data ++ ':' :: tail) = k.data ++ ':' :: tail := by
  refine stripBothL_eq_self _ _ (fun a ha => ?_) (fun a ha => ?_)
  · rcases hd : k.data with _ | ⟨c, rest⟩
    · rw [hd] at ha
      simp only [List.nil_append, List.head?_cons, Option.some.injEq] at ha
      rw [← ha]
      exact pyIsSpace_colon
    · rw [hd, head?_append_left _ _ (by simp)] at ha
      rw [← hd] at ha
      exact head_not_p_of_stripBoth_eq hk ha
  · rw [getLast?_append_right _ _ (by simp),
      show (':' :: tail) = [':'] ++ tail from rfl,
      getLast?_append_right _ _ htne] at ha
    exact hlast a ha

/-- Appending a space-colon-key reversed suffix cannot create a trailing
`---` if the value itself has none. -/
lemma not_dash_suffix_core_str (k : String) (sv : List Char)
    (h : (['-', '-', '-'].isSuffixOf sv) = false) (hne : sv ≠ []) :
    (['-', '-', '-'].isSuffixOf (k.data ++ ':' :: ' ' :: sv)) = false := by
  rw [List.isSuffixOf] at h ⊢
  rw [show (['-', '-', '-'] : List Char).reverse = ['-', '-', '-'] from rfl] at h ⊢
  have hrev : (k.data ++ ':' :: ' ' :: sv).reverse =
      sv.reverse ++ ' ' :: ':' :: k.data.reverse := by
    simp
  rw [hrev]
  rcases h1 : sv.reverse with _ | ⟨a, r1⟩
  · exact absurd (by simpa using congrArg List.reverse h1) hne
  · rcases r1 with _ | ⟨b, r2⟩
    · simp [List.isPrefixOf]
    · rcases r2 with _ | ⟨c, r3⟩
      · simp [List.isPrefixOf]
      · rw [h1] at h
        simp only [List.isPrefixOf, List.cons_append] at h ⊢
        simpa using h

lemma not_dash_suffix_core_tags (x : List Char) :
    (['-', '-', '-'].isSuffixOf (x ++ [']'])) = false := by
  rw [List.isSuffixOf]
  rw [show (['-', '-', '-'] : List Char).reverse = ['-', '-', '-'] from rfl]
  simp [List.isPrefixOf]

/-- A list fixed by a both-ends strip is fixed by each half separately. -/
lemma strip_fix_parts {l : List Char} (h : pyStripL l = l) :
    l.dropWhile pyIsSpace = l ∧ dropTrailing pyIsSpace l = l := by
  have h' : dropTrailing pyIsSpace (l.dropWhile pyIsSpace) = l := h
  have hl1 : (dropTrailing pyIsSpace (l.dropWhile pyIsSpace)).length ≤
      (l.dropWhile pyIsSpace).length := (isPrefix_dropTrailing _ _).sublist.length_le
  have hsub2 : (l.dropWhile pyIsSpace).Sublist l := List.dropWhile_sublist _
  have hlen := congrArg List.length h'
  have e1 : l.dropWhile pyIsSpace = l :=
    hsub2.eq_of_length (le_antisymm hsub2.length_le (by omega))
  refine ⟨e1, ?_⟩
  rw [e1] at h'
  exact h'

lemma pyStripL_space_cons (sv : List Char) (h : pyStripL sv = sv) :
    pyStripL (' ' :: sv) = sv := by
  obtain ⟨h1, h2⟩ := strip_fix_parts h
  show stripBothL pyIsSpace (' ' :: sv) = sv
  rw [stripBothL, List.dropWhile_cons_of_pos (by decide), h1]
  exact h2

lemma dropTrailing_eq_self_of_getLast (p : Char → Bool) (l : List Char)
    (h : ∀ a, l.getLast? = some a → p a = false) : dropTrailing p l = l := by
  rw [dropTrailing, dropWhile_eq_self_of_head p l.reverse
    (by simpa [List.head?_reverse] using h), List.reverse_reverse]

lemma pyStripL_space_bracket (x : List Char) :
    pyStripL (' ' :: '[' :: (x ++ [']'])) = '[' :: (x ++ [']']) := by
  show stripBothL pyIsSpace (' ' :: '[' :: (x ++ [']'])) = _
  rw [stripBothL, List.dropWhile_cons_of_pos (by decide),
    List.dropWhile_cons_of_neg (by decide)]
  refine dropTrailing_eq_self_of_getLast _ _ (fun a ha => ?_)
  rw [show ('[' :: (x ++ [']'])) = ('[' :: x) ++ [']'] from rfl,
    getLast?_append_right _ _ (by simp)] at ha
  simp only [List.getLast?_singleton, Option.some.injEq] at ha
  rw [← ha]
  decide

lemma takeWhile_colon (kd : List Char) (t : List Char) (h : (':' : Char) ∉ kd) :
    (kd ++ ':' :: t).takeWhile (fun c => ¬ c = ':') = kd ∧
    (kd ++ ':' :: t).dropWhile (fun c => ¬ c = ':') = ':' :: t := by
  induction kd with
  | nil =>
    constructor
    · rw [List.nil_append, List.takeWhile_cons_of_neg (by simp)]
    · rw [List.nil_append, List.dropWhile_cons_of_neg (by simp)]
  | cons c r ih =>
    have hc : c ≠ ':' := by
      intro hh
      exact h (hh ▸ List.mem_cons_self _ _)
    have hr : (':' : Char) ∉ r := fun hm => h (List.mem_cons_of_mem _ hm)
    obtain ⟨ih1, ih2⟩ := ih hr
    constructor
    · rw [List.cons_append, List.takeWhile_cons_of_pos (by simp [hc]), ih1]
    · rw [List.cons_append, List.dropWhile_cons_of_pos (by simp [hc]), ih2]

/-! ### The bracketed-tags quote-toggle scanner -/

lemma scanTags_quote (r buf : List Char) (parts : List (List Char)) (inq : Bool) :
    scanTags ('"' :: r) buf parts inq = scanTags r buf parts (!inq) := by
  rw [scanTags, if_pos (Or.inl rfl)]

lemma scanTags_comma (r buf : List Char) (parts : List (List Char)) :
    scanTags (',' :: r) buf parts false =
      scanTags r [] (if (pyStripL buf).isEmpty then parts else parts ++ [pyStripL buf])
        false := by
  rw [scanTags, if_neg (by decide), if_pos ⟨rfl, rfl⟩]

lemma scanTags_other (ch : Char) (r buf : List Char) (parts : List (List Char)) (inq : Bool)
    (h1 : ¬(ch = '"' ∨ ch = '\'')) (h2 : ¬(ch = ',' ∧ inq = false)) :
    scanTags (ch :: r) buf parts inq = scanTags r (buf ++ [ch]) parts inq := by
  rw [scanTags, if_neg h1, if_neg h2]

lemma scanTags_chunk (c : List Char) (r buf : List Char) (parts : List (List Char))
    (inq : Bool)
    (hc : ∀ x ∈ c, ¬ x = '"' ∧ ¬ x = '\'' ∧ (inq = true ∨ ¬ x = ',')) :
    scanTags (c ++ r) buf parts inq = scanTags r (buf ++ c) parts inq := by
  induction c generalizing buf with
  | nil => simp
  | cons x cr ih =>
    obtain ⟨hq1, hq2, hq3⟩ := hc x (List.mem_cons_self _ _)
    rw [List.cons_append, scanTags_other x _ _ _ _ (by tauto)
        (by
          rintro ⟨hx, hi⟩
          rcases hq3 with hq3 | hq3
          · rw [hq3] at hi; cases hi
          · exact hq3 hx),
      ih _ (fun y hy => hc y (List.mem_cons_of_mem _ hy))]
    simp [List.append_assoc]

lemma mem_dropWhile_of_neg {p : Char → Bool} {c : Char} (hc : p c = false) :
    ∀ {l : List Char}, c ∈ l → c ∈ l.dropWhile p := by
  intro l
  induction l with
  | nil => intro h; cases h
  | cons a r ih =>
    intro h
    by_cases ha : p a
    · rw [List.dropWhile_cons_of_pos ha]
      rcases List.mem_cons.mp h with h | h
      · rw [h] at hc; rw [ha] at hc; cases hc
      · exact ih h
    · rw [List.dropWhile_cons_of_neg ha]
      exact h

lemma all_space_of_strip_nil {l : List Char} (h : pyStripL l = []) :
    ∀ c ∈ l, pyIsSpace c = true := by
  intro c hc
  by_contra hns
  rw [Bool.not_eq_true] at hns
  have h1 : c ∈ l.dropWhile pyIsSpace := mem_dropWhile_of_neg hns hc
  have h2 : c ∈ (l.dropWhile pyIsSpace).reverse := List.mem_reverse.mpr h1
  have h3 : c ∈ ((l.dropWhile pyIsSpace).reverse.dropWhile pyIsSpace) :=
    mem_dropWhile_of_neg hns h2
  have h4 : c ∈ pyStripL l := by
    rw [pyStripL, stripBothL, dropTrailing]
    exact List.mem_reverse.mpr h3
  rw [h] at h4
  cases h4

lemma dropWhile_append_of_all {p : Char → Bool} {buf : List Char}
    (h : ∀ c ∈ buf, p c = true) (x : List Char) :
    (buf ++ x).dropWhile p = x.dropWhile p := by
  induction buf with
  | nil => rfl
  | cons c r ih =>
    rw [List.cons_append, List.dropWhile_cons_of_pos (h c (List.mem_cons_self _ _))]
    exact ih (fun y hy => h y (List.mem_cons_of_mem _ hy))

lemma pyStripL_allspace_append (buf x : List Char) (h : pyStripL buf = []) :
    pyStripL (buf ++ x) = pyStripL x := by
  show stripBothL pyIsSpace (buf ++ x) = stripBothL pyIsSpace x
  rw [stripBothL, stripBothL, dropWhile_append_of_all (all_space_of_strip_nil h)]

lemma fmt_tag_quoted (t : String)
    (hq : t.data.contains ',' ∨ t.data.contains ' ' ∨ t = "") :
    (_fmt_tag t).data = '"' :: (t.data ++ ['"']) := by
  rw [_fmt_tag, if_pos hq, String.data_append, String.data_append]
  rfl

lemma fmt_tag_unquoted (t : String)
    (hq : ¬(t.data.contains ',' ∨ t.data.contains ' ' ∨ t = "")) :
    (_fmt_tag t).data = t.data := by
  rw [_fmt_tag, if_neg hq]

lemma fmt_tag_ne_nil (t : String) : (_fmt_tag t).data ≠ [] := by
  by_cases hq : (t.data.contains ',' ∨ t.data.contains ' ' ∨ t = "")
  · rw [fmt_tag_quoted t hq]; simp
  · rw [fmt_tag_unquoted t hq]
    intro hd
    exact hq (Or.inr (Or.inr (by
      have : t = ("" : String) := by
        cases t
        simp at hd
        simp [hd]
      exact this)))

lemma fmt_tag_head_not_space (t : String) (ht : pyStripL t.data = t.data) {a : Char}
    (h : (_fmt_tag t).data.head? = some a) : pyIsSpace a = false := by
  by_cases hq : (t.data.contains ',' ∨ t.data.contains ' ' ∨ t = "")
  · rw [fmt_tag_quoted t hq] at h
    simp only [List.head?_cons, Option.some.injEq] at h
    rw [← h]
    decide
  · rw [fmt_tag_unquoted t hq] at h
    exact head_not_p_of_stripBoth_eq ht h

lemma fmt_tag_getLast_not_space (t : String) (ht : pyStripL t.data = t.data) {a : Char}
    (h : (_fmt_tag t).data.getLast? = some a) : pyIsSpace a = false := by
  by_cases hq : (t.data.contains ',' ∨ t.data.contains ' ' ∨ t = "")
  · rw [fmt_tag_quoted t hq,
      show ('"' :: (t.data ++ ['"'])) = ('"' :: t.data) ++ ['"'] from rfl,
      getLast?_append_right _ _ (by simp)] at h
    simp only [List.getLast?_singleton, Option.some.injEq] at h
    rw [← h]
    decide
  · rw [fmt_tag_unquoted t hq] at h
    exact getLast_not_p_of_stripBoth_eq ht h

lemma fmtJoinL_ne_nil : ∀ {ts : List String}, ts ≠ [] → fmtJoinL ts ≠ [] := by
  intro ts hne
  cases ts with
  | nil => exact absurd rfl hne
  | cons t rest =>
    rw [fmtJoinL]
    split
    · exact fmt_tag_ne_nil t
    · intro hcontra
      exact fmt_tag_ne_nil t (List.append_eq_nil.mp (List.append_eq_nil.mp hcontra).1).1

lemma fmtJoinL_head_not_space : ∀ {ts : List String}, (∀ t ∈ ts, wfTag t) →
    ∀ {a : Char}, (fmtJoinL ts).head? = some a → pyIsSpace a = false := by
  intro ts hts a h
  cases ts with
  | nil => cases h
  | cons t rest =>
    have ht := (hts t (List.mem_cons_self _ _)).1
    rw [fmtJoinL] at h
    split at h
    · exact fmt_tag_head_not_space t ht h
    · rw [List.append_assoc, head?_append_left _ _ (fmt_tag_ne_nil t)] at h
      exact fmt_tag_head_not_space t ht h

lemma fmtJoinL_getLast_not_space : ∀ {ts : List String}, (∀ t ∈ ts, wfTag t) →
    ∀ {a : Char}, (fmtJoinL ts).getLast? = some a → pyIsSpace a = false := by
  intro ts
  induction ts with
  | nil => intro _ a h; cases h
  | cons t rest ih =>
    intro hts a h
    have ht := (hts t (List.mem_cons_self _ _)).1
    rw [fmtJoinL] at h
    split at h
    · exact fmt_tag_getLast_not_space t ht h
    · rename_i hre
      have hrne : rest ≠ [] := by
        intro hr
        rw [hr] at hre
        exact hre rfl
      rw [getLast?_append_right _ _ (fmtJoinL_ne_nil hrne)] at h
      exact ih (fun x hx => hts x (List.mem_cons_of_mem _ hx)) h

/-- Scanning one formatted tag that ends the input pushes exactly the tag. -/
lemma scanTags_tag_end (t : String) (ht : wfTag t) (buf : List Char)
    (parts : List (List Char)) (hbuf : pyStripL buf = []) :
    scanTags ((_fmt_tag t).data) buf parts false = parts ++ [t.data] := by
  obtain ⟨ht1, ht2, _, htq, htq'⟩ := ht
  have hstrip : pyStripL (buf ++ t.data) = t.data := by
    rw [pyStripL_allspace_append _ _ hbuf, ht1]
  have hfin : scanTags [] (buf ++ t.data) parts false = parts ++ [t.data] := by
    rw [scanTags, hstrip, if_neg (by simp [ht2])]
  by_cases hq : (t.data.contains ',' ∨ t.data.contains ' ' ∨ t = "")
  · rw [fmt_tag_quoted t hq, scanTags_quote, Bool.not_false,
      scanTags_chunk t.data ['"'] _ _ _
        (fun x hx => ⟨fun hc => htq (hc ▸ hx), fun hc => htq' (hc ▸ hx), Or.inl rfl⟩),
      scanTags_quote, Bool.not_true]
    exact hfin
  · have hnc : (',' : Char) ∉ t.data := by
      intro hc
      exact hq (Or.inl (by simpa using hc))
    have hch := scanTags_chunk t.data [] buf parts false
      (fun x hx => ⟨fun hc => htq (hc ▸ hx), fun hc => htq' (hc ▸ hx),
        Or.inr (fun hc => hnc (hc ▸ hx))⟩)
    rw [List.append_nil] at hch
    rw [fmt_tag_unquoted t hq, hch]
    exact hfin

/-- Scanning one formatted tag followed by a comma-space separator pushes the
tag and leaves the single-space buffer. -/
lemma scanTags_tag_comma (t : String) (ht : wfTag t) (buf : List Char)
    (parts : List (List Char)) (J : List Char) (hbuf : pyStripL buf = []) :
    scanTags ((_fmt_tag t).data ++ ',' :: ' ' :: J) buf parts false =
      scanTags J [' '] (parts ++ [t.data]) false := by
  obtain ⟨ht1, ht2, _, htq, htq'⟩ := ht
  have hstrip : pyStripL (buf ++ t.data) = t.data := by
    rw [pyStripL_allspace_append _ _ hbuf, ht1]
  have hstep : scanTags (',' :: ' ' :: J) (buf ++ t.data) parts false =
      scanTags J [' '] (parts ++ [t.data]) false := by
    rw [scanTags_comma, hstrip, if_neg (by simp [ht2]),
      scanTags_other ' ' _ _ _ _ (by decide) (by decide)]
    rfl
  by_cases hq : (t.data.contains ',' ∨ t.data.contains ' ' ∨ t = "")
  · rw [fmt_tag_quoted t hq,
      show ('"' :: (t.data ++ ['"'])) ++ ',' :: ' ' :: J
        = '"' :: (t.data ++ ('"' :: ',' :: ' ' :: J)) by simp,
      scanTags_quote, Bool.not_false,
      scanTags_chunk t.data ('"' :: ',' :: ' ' :: J) _ _ _
        (fun x hx => ⟨fun hc => htq (hc ▸ hx), fun hc => htq' (hc ▸ hx), Or.inl rfl⟩),
      scanTags_quote, Bool.not_true]
    exact hstep
  · have hnc : (',' : Char) ∉ t.data := by
      intro hc
      exact hq (Or.inl (by simpa using hc))
    rw [fmt_tag_unquoted t hq,
      scanTags_chunk t.data _ _ _ _
        (fun x hx => ⟨fun hc => htq (hc ▸ hx), fun hc => htq' (hc ▸ hx),
          Or.inr (fun hc => hnc (hc ▸ hx))⟩)]
    exact hstep

/-- The scanner splits a rendered tag join back into the tags. -/
lemma scanTags_fmtJoinL : ∀ (ts : List String), (∀ t ∈ ts, wfTag t) → ts ≠ [] →
    ∀ (buf : List Char) (parts : List (List Char)), pyStripL buf = [] →
    scanTags (fmtJoinL ts) buf parts false = parts ++ ts.map (fun t => t.data) := by
  intro ts
  induction ts with
  | nil => intro _ hne; exact absurd rfl hne
  | cons t rest ih =>
    intro hts _ buf parts hbuf
    cases rest with
    | nil =>
      rw [show fmtJoinL [t] = (_fmt_tag t).data from rfl,
        scanTags_tag_end t (hts t (List.mem_cons_self _ _)) buf parts hbuf]
      rfl
    | cons t2 r2 =>
      rw [fmtJoinL, if_neg (by simp),
        show ((_fmt_tag t).data ++ (", ").data ++ fmtJoinL (t2 :: r2))
          = (_fmt_tag t).data ++ ',' :: ' ' :: fmtJoinL (t2 :: r2) by simp,
        scanTags_tag_comma t (hts t (List.mem_cons_self _ _)) buf parts _ hbuf,
        ih (fun x hx => hts x (List.mem_cons_of_mem _ hx)) (by simp) [' ']
          (parts ++ [t.data]) (by decide)]
      simp

lemma tagsFromParts_map (ts : List String) (hts : ∀ t ∈ ts, wfTag t) :
    tagsFromParts (ts.map (fun t => t.data)) = ts := by
  induction ts with
  | nil => rfl
  | cons t rest ih =>
    obtain ⟨ht1, ht2, _⟩ := hts t (List.mem_cons_self _ _)
    have ihr := ih (fun x hx => hts x (List.mem_cons_of_mem _ hx))
    simp only [tagsFromParts, List.map_cons, List.filterMap_cons] at ihr ⊢
    rw [ht1, if_neg (by simp [ht2])]
    rw [ihr]

/-- The tags-value parser inverts the bracketed rendering. -/
lemma parseTagsVal_render (ts : List String) (hts : ∀ t ∈ ts, wfTag t) :
    parseTagsVal ('[' :: (fmtJoinL ts ++ [']'])) = ts := by
  cases ts with
  | nil => decide
  | cons t rest =>
    have hne : (t :: rest : List String) ≠ [] := by simp
    have hJne : fmtJoinL (t :: rest) ≠ [] := fmtJoinL_ne_nil hne
    rw [parseTagsVal, if_pos ⟨rfl, by
      rw [show ('[' :: (fmtJoinL (t :: rest) ++ [']']))
          = ('[' :: fmtJoinL (t :: rest)) ++ [']'] from rfl,
        getLast?_append_right _ _ (by simp)]
      rfl⟩]
    have hdrop : (('[' :: (fmtJoinL (t :: rest) ++ [']'])).drop 1).dropLast
        = fmtJoinL (t :: rest) := by
      simp
    rw [hdrop]
    have hstrip : pyStripL (fmtJoinL (t :: rest)) = fmtJoinL (t :: rest) :=
      stripBothL_eq_self _ _ (fun a ha => fmtJoinL_head_not_space hts ha)
        (fun a ha => fmtJoinL_getLast_not_space hts ha)
    rw [hstrip, if_neg (by simp [hJne]),
      scanTags_fmtJoinL (t :: rest) hts hne [] [] rfl, List.nil_append,
      tagsFromParts_map _ hts]

/-! ### One rendered header line parses back to its key–value pair -/

lemma parseHeaderLine_render_str (m : Meta) (k : String) (s : String)
    (hk : wfKey k) (hs : wfValStr s) (hne : k ≠ "tags") :
    parseHeaderLine m (renderCore k (Val.vs s)) = setIns m k (Val.vs s) := by
  obtain ⟨hk1, hk2, hk3, hk4, hk5⟩ := hk
  obtain ⟨hs1, hs2, hs3, hs4⟩ := hs
  have hstrip : pyStripL (k.data ++ ':' :: ' ' :: s.data) = k.data ++ ':' :: ' ' :: s.data :=
    pyStripL_core k hk1 (' ' :: s.data)
      (fun a ha => by
        rw [show (' ' :: s.data) = [' '] ++ s.data from rfl,
          getLast?_append_right _ _ hs2] at ha
        exact getLast_not_p_of_stripBoth_eq hs1 ha)
      (by simp)
  have hnonempty : ¬ ((k.data ++ ':' :: ' ' :: s.data).isEmpty = true) := by
    simp [List.isEmpty_iff]
  have hhead : ¬ ((k.data ++ ':' :: ' ' :: s.data).head? = some '#') := by
    intro hcontra
    rcases hd : k.data with _ | ⟨c, r⟩
    · rw [hd] at hcontra
      simp at hcontra
    · rw [hd, head?_append_left _ _ (by simp)] at hcontra
      simp only [List.head?_cons, Option.some.injEq] at hcontra
      apply hk4
      rw [hd, List.head?_cons, hcontra]
  have hcontains : (k.data ++ ':' :: ' ' :: s.data).contains ':' = true := by
    simp
  obtain ⟨htake, hdrop⟩ := takeWhile_colon k.data (' ' :: s.data) hk3
  rw [show renderCore k (Val.vs s) = k.data ++ ':' :: ' ' :: s.data from by
    rw [show renderCore k (Val.vs s) = k.data ++ [':', ' '] ++ s.data from rfl,
      List.append_assoc]
    rfl]
  simp only [parseHeaderLine]
  rw [hstrip, if_neg hnonempty, if_neg hhead, if_pos hcontains, htake, hdrop,
    List.tail_cons, hk1, hk5, pyStripL_space_cons _ hs1,
    if_neg (show ¬ ((⟨k.data⟩ : String) = "tags") from hne)]

lemma parseHeaderLine_render_tags (m : Meta) (ts : List String)
    (hts : ∀ t ∈ ts, wfTag t) :
    parseHeaderLine m (renderCore "tags" (Val.vl ts)) = setIns m "tags" (Val.vl ts) := by
  have hcore : renderCore "tags" (Val.vl ts)
      = ("tags").data ++ ':' :: ' ' :: '[' :: (fmtJoinL ts ++ [']']) := rfl
  have hstrip : pyStripL (("tags").data ++ ':' :: ' ' :: '[' :: (fmtJoinL ts ++ [']']))
      = ("tags").data ++ ':' :: ' ' :: '[' :: (fmtJoinL ts ++ [']']) :=
    pyStripL_core "tags" (by decide) _
      (fun a ha => by
        rw [show (' ' :: '[' :: (fmtJoinL ts ++ [']']))
            = (' ' :: '[' :: fmtJoinL ts) ++ [']'] by simp,
          getLast?_append_right _ _ (by simp)] at ha
        simp only [List.getLast?_singleton, Option.some.injEq] at ha
        rw [← ha]
        decide)
      (by simp)
  have hnonempty : ¬ ((("tags").data ++ ':' :: ' ' :: '[' :: (fmtJoinL ts ++ [']'])).isEmpty
      = true) := by
    simp [List.isEmpty_iff]
  have hhead : ¬ ((("tags").data ++ ':' :: ' ' :: '[' :: (fmtJoinL ts ++ [']'])).head?
      = some '#') := by
    intro hcontra
    rw [show ("tags").data = 't' :: ['a', 'g', 's'] from rfl, List.cons_append,
      List.head?_cons] at hcontra
    simp at hcontra
  have hcontains : (("tags").data ++ ':' :: ' ' :: '[' :: (fmtJoinL ts ++ [']'])).contains ':'
      = true := by
    simp
  obtain ⟨htake, hdrop⟩ :=
    takeWhile_colon ("tags").data (' ' :: '[' :: (fmtJoinL ts ++ [']'])) (by decide)
  rw [hcore]
  simp only [parseHeaderLine]
  rw [hstrip, if_neg hnonempty, if_neg hhead, if_pos hcontains, htake, hdrop,
    List.tail_cons, show pyStripL ("tags").data = ("tags").data from by decide,
    show lowerAscii ("tags").data = ("tags").data from by decide,
    pyStripL_space_bracket (fmtJoinL ts),
    if_pos (show (⟨("tags").data⟩ : String) = "tags" from rfl),
    parseTagsVal_render ts hts]

/-! ### Splitting the flattened header back into its lines -/

lemma splitlinesGo_nl (acc rest : List Char) :
    splitlinesGo acc ('\n' :: rest) = acc :: splitlinesGo [] rest := by
  rw [splitlinesGo.eq_def]
  rfl

lemma splitlinesGo_chr (c : Char) (hc : pyIsLineBreak c = false) (acc rest : List Char) :
    splitlinesGo acc (c :: rest) = splitlinesGo (acc ++ [c]) rest := by
  have hcr : ¬ (c = '\r') := by
    intro h
    rw [h] at hc
    exact absurd hc (by decide)
  rw [splitlinesGo.eq_def]
  simp only [hcr, hc, if_false, Bool.false_eq_true, if_neg]

lemma splitlinesGo_line (core : List Char) (hc : ∀ c ∈ core, pyIsLineBreak c = false) :
    ∀ (acc rest : List Char),
    splitlinesGo acc (core ++ '\n' :: rest) = (acc ++ core) :: splitlinesGo [] rest := by
  induction core with
  | nil =>
    intro acc rest
    rw [List.nil_append, List.append_nil, splitlinesGo_nl]
  | cons x xs ih =>
    intro acc rest
    rw [List.cons_append, splitlinesGo_chr x (hc x (List.mem_cons_self _ _)),
      ih (fun y hy => hc y (List.mem_cons_of_mem _ hy))]
    simp

lemma splitlinesL_flatten (cores : List (List Char))
    (h : ∀ c ∈ cores, ∀ x ∈ c, pyIsLineBreak x = false) :
    splitlinesL ((cores.map (fun c => c ++ ['\n'])).flatten) = cores := by
  induction cores with
  | nil => rfl
  | cons c cs ih =>
    rw [List.map_cons, List.flatten_cons, splitlinesL,
      show (c ++ ['\n']) ++ (cs.map (fun c => c ++ ['\n'])).flatten
        = c ++ '\n' :: (cs.map (fun c => c ++ ['\n'])).flatten by simp,
      splitlinesGo_line c (h c (List.mem_cons_self _ _)) [] _, List.nil_append]
    rw [show splitlinesGo [] ((cs.map (fun c => c ++ ['\n'])).flatten)
        = splitlinesL ((cs.map (fun c => c ++ ['\n'])).flatten) from rfl,
      ih (fun x hx y hy => h x (List.mem_cons_of_mem _ hx) y hy)]

/-! ### Locating the closing delimiter -/

lemma isSuffixOf_cons_of_isSuffixOf {pat xs : List Char} (x : Char)
    (h : pat.isSuffixOf (x :: xs) = false) : pat.isSuffixOf xs = false := by
  by_contra hcontra
  rw [Bool.not_eq_false] at hcontra
  have h1 : pat <:+ xs := by
    rwa [List.isSuffixOf_iff_suffix] at hcontra
  have h2 : pat <:+ (x :: xs) := h1.trans (List.suffix_cons x xs)
  rw [← List.isSuffixOf_iff_suffix] at h2
  rw [h2] at h
  cases h

lemma findSubL_core_skip (c : List Char) (hlb : ∀ x ∈ c, pyIsLineBreak x = false)
    (hds : (['-', '-', '-'].isSuffixOf c) = false) (r : List Char) :
    findSubL fmMark (c ++ '\n' :: r) =
      (findSubL fmMark ('\n' :: r)).map (· + c.length) := by
  induction c with
  | nil =>
    cases hb : findSubL fmMark ('\n' :: r) <;> simp [hb]
  | cons x xs ih =>
    have hpre : fmMark.isPrefixOf (x :: (xs ++ '\n' :: r)) = false := by
      rcases xs with _ | ⟨y, ys⟩
      · simp [fmMark, List.isPrefixOf]
      · rcases ys with _ | ⟨z, zs⟩
        · simp [fmMark, List.isPrefixOf]
        · rcases zs with _ | ⟨w, ws⟩
          · by_cases hxyz : x = '-' ∧ y = '-' ∧ z = '-'
            · exfalso
              have hsuf : (['-', '-', '-'].isSuffixOf [x, y, z]) = true := by
                rw [hxyz.1, hxyz.2.1, hxyz.2.2]
                decide
              rw [hsuf] at hds
              cases hds
            · by_cases hx : x = '-'
              · by_cases hy : y = '-'
                · have hz : ¬ z = '-' := fun hz => hxyz ⟨hx, hy, hz⟩
                  have hz2 : ('-' : Char) ≠ z := fun h => hz h.symm
                  simp [fmMark, List.isPrefixOf, hx, hy, hz2]
                · have hy2 : ('-' : Char) ≠ y := fun h => hy h.symm
                  simp [fmMark, List.isPrefixOf, hy2]
              · have hx2 : ('-' : Char) ≠ x := fun h => hx h.symm
                simp [fmMark, List.isPrefixOf, hx2]
          · have hw : w ≠ '\n' := by
              intro hww
              have hmem : w ∈ x :: y :: z :: w :: ws := by simp
              have := hlb w hmem
              rw [hww] at this
              exact absurd this (by decide)
            have hw2 : ('\n' : Char) ≠ w := fun h => hw h.symm
            simp [fmMark, List.isPrefixOf, hw2]
    rw [List.cons_append, findSubL, if_neg (by rw [hpre]; exact Bool.false_ne_true),
      ih (fun y hy => hlb y (List.mem_cons_of_mem _ hy))
        (isSuffixOf_cons_of_isSuffixOf x hds)]
    cases hb : findSubL fmMark ('\n' :: r) <;> simp [hb] <;> omega

lemma findSubL_flatten_cores (cores : List (List Char))
    (h : ∀ c ∈ cores,
      (∀ x ∈ c, pyIsLineBreak x = false) ∧ (['-', '-', '-'].isSuffixOf c) = false)
    (tail : List Char) (htail : fmMark.isPrefixOf tail = true) :
    findSubL fmMark ((cores.map (fun c => c ++ ['\n'])).flatten ++ tail)
      = some ((cores.map (fun c => c ++ ['\n'])).flatten).length := by
  induction cores with
  | nil =>
    rw [List.map_nil, List.flatten_nil, List.nil_append, List.length_nil]
    rcases ht : tail with _ | ⟨a, r⟩
    · rw [ht] at htail
      exact absurd htail (by decide)
    · rw [ht] at htail
      rw [findSubL, if_pos htail]
  | cons c cs ih =>
    rw [List.map_cons, List.flatten_cons,
      show ((c ++ ['\n']) ++ (cs.map (fun c => c ++ ['\n'])).flatten) ++ tail
        = c ++ '\n' :: ((cs.map (fun c => c ++ ['\n'])).flatten ++ tail) by simp,
      findSubL_core_skip c (h c (List.mem_cons_self _ _)).1
        (h c (List.mem_cons_self _ _)).2,
      show findSubL fmMark ('\n' :: ((cs.map (fun c => c ++ ['\n'])).flatten ++ tail))
        = (findSubL fmMark ((cs.map (fun c => c ++ ['\n'])).flatten ++ tail)).map (· + 1) by
          rw [findSubL, if_neg (by simp [fmMark, List.isPrefixOf])],
      ih (fun x hx => h x (List.mem_cons_of_mem _ hx))]
    simp [List.length_append]
    omega

/-! ### Folding the parsed lines back into the metadata map -/

lemma foldl_parseHeaderLine_render (pairs : Meta)
    (hp : ∀ kv ∈ pairs, wfKey kv.1 ∧
      (kv.1 ≠ "tags" → ∃ s, kv.2 = Val.vs s ∧ wfValStr s) ∧
      (kv.1 = "tags" → ∃ ts, kv.2 = Val.vl ts ∧ ∀ t ∈ ts, wfTag t)) :
    ∀ acc : Meta, (pairs.map (fun kv => renderCore kv.1 kv.2)).foldl parseHeaderLine acc
      = pairs.foldl (fun a kv => setIns a kv.1 kv.2) acc := by
  induction pairs with
  | nil => intro acc; rfl
  | cons kv rest ih =>
    intro acc
    obtain ⟨hk, hvs, hvt⟩ := hp kv (List.mem_cons_self _ _)
    have hstep : parseHeaderLine acc (renderCore kv.1 kv.2) = setIns acc kv.1 kv.2 := by
      by_cases htags : kv.1 = "tags"
      · obtain ⟨ts, hv, hts⟩ := hvt htags
        rw [htags, hv, parseHeaderLine_render_tags acc ts hts]
      · obtain ⟨s, hv, hs⟩ := hvs htags
        rw [hv, parseHeaderLine_render_str acc kv.1 s hk hs htags]
    rw [List.map_cons, List.foldl_cons, List.foldl_cons, hstep,
      ih (fun x hx => hp x (List.mem_cons_of_mem _ hx))]

lemma containsKey_append (a b : Meta) (k : String) :
    containsKey (a ++ b) k = (containsKey a k || containsKey b k) := by
  simp [containsKey, List.any_append]

lemma foldl_setIns_disjoint : ∀ (pairs : Meta) (acc : Meta),
    (∀ kv ∈ pairs, containsKey acc kv.1 = false) →
    (pairs.map Prod.fst).Nodup →
    pairs.foldl (fun a kv => setIns a kv.1 kv.2) acc = acc ++ pairs := by
  intro pairs
  induction pairs with
  | nil => intro acc _ _; simp
  | cons kv rest ih =>
    intro acc hdis hnodup
    have hsingle : setIns acc kv.1 kv.2 = acc ++ [kv] := by
      rw [setIns, if_neg (by
        rw [hdis kv (List.mem_cons_self _ _)]
        exact Bool.false_ne_true)]
    have hknotrest : ∀ kv' ∈ rest, kv.1 ≠ kv'.1 := by
      intro kv' hm he
      have h1 : kv.1 ∉ rest.map Prod.fst := by
        rw [List.map_cons] at hnodup
        exact (List.nodup_cons.mp hnodup).1
      exact h1 (he ▸ List.mem_map_of_mem Prod.fst hm)
    rw [List.foldl_cons, hsingle,
      ih (acc ++ [kv])
        (fun kv' hm => by
          rw [containsKey_append, hdis kv' (List.mem_cons_of_mem _ hm), Bool.false_or]
          simp [containsKey]
          exact fun he => (hknotrest kv' hm) he)
        (by rw [List.map_cons] at hnodup; exact (List.nodup_cons.mp hnodup).2)]
    simp

lemma bool_eq_of_iff {a b : Bool} (h : a = true ↔ b = true) : a = b := by
  cases a <;> cases b <;> simp_all

lemma containsKey_iff_mem_mapfst {m : Meta} {k : String} :
    containsKey m k = true ↔ k ∈ m.map Prod.fst := by
  simp only [containsKey, List.any_eq_true, List.mem_map, decide_eq_true_eq]

lemma lookupV_eraseKey_self (m : Meta) (k : String) :
    lookupV (eraseKey m k) k = none := by
  refine lookupV_eq_none_of_not_contains (containsKey_eq_false_iff.mpr ?_)
  intro kv hkv
  have h := (List.mem_filter.mp hkv).2
  simpa using h

lemma containsKey_eraseKey_ne (m : Meta) (k : String) {q : String} (hq : q ≠ k) :
    containsKey (eraseKey m k) q = containsKey m q := by
  rw [← lookupV_isSome_iff, ← lookupV_isSome_iff, lookupV_eraseKey_ne m k hq]

/-- `_normalize_meta` is a literal identity on maps that already carry a
list-valued `tags` and the legacy-key co-presence. -/
lemma normalize_noop (m : Meta)
    (h1 : containsKey m "added" = true → containsKey m "created" = true)
    (h2 : containsKey m "updated" = true → containsKey m "modified" = true)
    (h3 : ∃ ts, lookupV m "tags" = some (Val.vl ts)) :
    _normalize_meta m = m := by
  have hr1 : renameLegacy "added" "created" m = m := by
    rw [renameLegacy, if_neg (by
      intro hcond
      rw [Bool.and_eq_true, Bool.not_eq_true'] at hcond
      rw [h1 hcond.1] at hcond
      exact absurd hcond.2 (by decide))]
  have hr2 : renameLegacy "updated" "modified" m = m := by
    rw [renameLegacy, if_neg (by
      intro hcond
      rw [Bool.and_eq_true, Bool.not_eq_true'] at hcond
      rw [h2 hcond.1] at hcond
      exact absurd hcond.2 (by decide))]
  obtain ⟨ts, hts⟩ := h3
  have hr3 : tagsStrToList m = m := by
    rw [tagsStrToList, hts]
  have hr4 : ensureTags m = m := by
    rw [ensureTags, if_pos (containsKey_of_lookupV_some hts)]
  rw [_normalize_meta, hr1, hr2, hr3, hr4]

lemma orderKeys_nodup : orderKeys.Nodup := by decide

lemma buildKeys_nodup (m : Meta) (h : (m.map Prod.fst).Nodup) : (buildKeys m).Nodup := by
  rw [buildKeys]
  refine List.Nodup.append (orderKeys_nodup.filter _) (h.filter _) ?_
  intro a ha1 ha2
  have h1 : a ∈ orderKeys := (List.mem_filter.mp ha1).1
  have h2 := (List.mem_filter.mp ha2).2
  simp only [decide_not, Bool.not_eq_true', decide_eq_false_iff_not] at h2
  exact h2 h1

lemma mem_buildKeys_iff (m : Meta) (k : String) :
    k ∈ buildKeys m ↔ containsKey m k = true := by
  rw [buildKeys]
  constructor
  · intro h
    rcases List.mem_append.mp h with h | h
    · exact (List.mem_filter.mp h).2
    · exact containsKey_iff_mem_mapfst.mpr (List.mem_filter.mp h).1
  · intro h
    by_cases ho : k ∈ orderKeys
    · exact List.mem_append.mpr (Or.inl (List.mem_filter.mpr ⟨ho, h⟩))
    · refine List.mem_append.mpr (Or.inr (List.mem_filter.mpr
        ⟨containsKey_iff_mem_mapfst.mp h, ?_⟩))
      simp only [decide_not, Bool.not_eq_true', decide_eq_false_iff_not]
      exact ho

lemma renderCore_vs_eq (k s : String) :
    renderCore k (Val.vs s) = k.data ++ ':' :: ' ' :: s.data := by
  rw [show renderCore k (Val.vs s) = k.data ++ [':', ' '] ++ s.data from rfl,
    List.append_assoc]
  rfl

lemma dropWhile_newline_eq_self (b : String) (hb : b.data.head? ≠ some '\n') :
    b.data.dropWhile (fun c => c = '\n') = b.data := by
  refine dropWhile_eq_self_of_head _ _ (fun a ha => ?_)
  have : a ≠ '\n' := by
    intro he
    rw [he] at ha
    exact hb ha
  simp [this]

lemma lookupV_of_mem_nodup : ∀ {m : Meta} {k : String} {v : Val},
    (k, v) ∈ m → (m.map Prod.fst).Nodup → lookupV m k = some v := by
  intro m
  induction m with
  | nil => intro k v h _; cases h
  | cons kv rest ih =>
    intro k v hmem hnd
    rcases List.mem_cons.mp hmem with h | h
    · rw [lookupV, if_pos (by rw [← h])]
      rw [← h]
    · have hk : kv.1 ≠ k := by
        intro he
        have h1 : kv.1 ∉ rest.map Prod.fst := by
          rw [List.map_cons] at hnd
          exact (List.nodup_cons.mp hnd).1
        exact h1 (by
          rw [he]
          exact List.mem_map_of_mem Prod.fst h)
      rw [lookupV, if_neg hk]
      exact ih h (by rw [List.map_cons] at hnd; exact (List.nodup_cons.mp hnd).2)

/-- The encoder's empty-value filter followed by normalization preserves
well-formedness and the key–value content of a well-formed map: the only
possible change is an empty `tags` dropped and re-appended at the end. -/
lemma WF_filter_normalize (m : Meta) (hm : WFMeta m) :
    WFMeta (_normalize_meta (filterEmpty m)) ∧
    (∀ q, lookupV (_normalize_meta (filterEmpty m)) q = lookupV m q) := by
  obtain ⟨hnd, hkeys, hvals, ⟨ts, htags, hwts⟩, hac, hum⟩ := hm
  have hvalue_of_mem : ∀ kv ∈ m, kv.1 = "tags" → kv.2 = Val.vl ts := by
    intro kv hkv hk
    have h1 : lookupV m kv.1 = some kv.2 :=
      lookupV_of_mem_nodup (show (kv.1, kv.2) ∈ m from hkv) hnd
    rw [hk, htags] at h1
    exact (Option.some_inj.mp h1).symm
  by_cases hts0 : ts = []
  · subst hts0
    have hfe : filterEmpty m = eraseKey m "tags" := by
      rw [filterEmpty, eraseKey]
      apply List.filter_congr
      intro kv hkv
      by_cases hk : kv.1 = "tags"
      · rw [hvalue_of_mem kv hkv hk]
        simp [isEmptyVal, hk]
      · obtain ⟨s, hv, hws⟩ := hvals kv hkv hk
        have hsne : s ≠ "" := fun he => hws.2.1 (by rw [he])
        have hie : s.isEmpty = false := by
          rw [← Bool.not_eq_true, String.isEmpty_iff]
          exact hsne
        rw [hv]
        simp [isEmptyVal, hie, hk]
    set E := eraseKey m "tags" with hE
    have hknd : (E.map Prod.fst).Nodup :=
      hnd.sublist ((List.filter_sublist _).map Prod.fst)
    have hcE : containsKey E "tags" = false := by
      rw [← lookupV_isSome_iff, hE, lookupV_eraseKey_self]
      rfl
    have hEnone : lookupV E "tags" = none := by
      rw [hE]
      exact lookupV_eraseKey_self m "tags"
    have hmemE : ∀ kv, kv ∈ E → kv ∈ m := by
      intro kv h
      rw [hE, eraseKey] at h
      exact (List.mem_filter.mp h).1
    have hckE : ∀ q, q ≠ "tags" → containsKey E q = containsKey m q := by
      intro q hq
      rw [hE]
      exact containsKey_eraseKey_ne m "tags" hq
    have hnormE : _normalize_meta E = E ++ [("tags", Val.vl [])] := by
      have ha : renameLegacy "added" "created" E = E := by
        rw [renameLegacy, if_neg (by
          intro hcond
          rw [Bool.and_eq_true, Bool.not_eq_true'] at hcond
          have h1 : containsKey m "added" = true := by
            rw [← hckE "added" (by decide)]
            exact hcond.1
          have h2 : containsKey m "created" = false := by
            rw [← hckE "created" (by decide)]
            exact hcond.2
          rw [hac h1] at h2
          exact absurd h2 (by decide))]
      have hu : renameLegacy "updated" "modified" E = E := by
        rw [renameLegacy, if_neg (by
          intro hcond
          rw [Bool.and_eq_true, Bool.not_eq_true'] at hcond
          have h1 : containsKey m "updated" = true := by
            rw [← hckE "updated" (by decide)]
            exact hcond.1
          have h2 : containsKey m "modified" = false := by
            rw [← hckE "modified" (by decide)]
            exact hcond.2
          rw [hum h1] at h2
          exact absurd h2 (by decide))]
      have ht : tagsStrToList E = E := by
        rw [tagsStrToList, hEnone]
      have he2 : ensureTags E = E ++ [("tags", Val.vl [])] := by
        rw [ensureTags, if_neg (by rw [hcE]; exact Bool.false_ne_true)]
      rw [_normalize_meta, ha, hu, ht, he2]
    rw [hfe, hnormE]
    refine ⟨⟨?_, ?_, ?_, ?_, ?_, ?_⟩, ?_⟩
    · rw [List.map_append]
      refine List.Nodup.append hknd (by simp) ?_
      intro a ha1 ha2
      simp only [List.map_cons, List.map_nil, List.mem_singleton] at ha2
      subst ha2
      have := containsKey_iff_mem_mapfst.mpr ha1
      rw [hcE] at this
      cases this
    · intro kv hkv
      rcases List.mem_append.mp hkv with h | h
      · exact hkeys kv (hmemE kv h)
      · simp only [List.mem_singleton] at h
        rw [h]
        exact ⟨by decide, by decide, by decide, by decide, by decide⟩
    · intro kv hkv hk
      rcases List.mem_append.mp hkv with h | h
      · exact hvals kv (hmemE kv h) hk
      · simp only [List.mem_singleton] at h
        rw [h] at hk
        exact absurd rfl hk
    · refine ⟨[], ?_, by simp⟩
      rw [lookupV_append_of_none _ hEnone]
      rfl
    · intro hadded
      rw [containsKey_append] at hadded ⊢
      rw [show containsKey [("tags", Val.vl [])] "added" = false from by decide,
        Bool.or_false] at hadded
      rw [show containsKey [("tags", Val.vl [])] "created" = false from by decide,
        Bool.or_false]
      rw [hckE "added" (by decide)] at hadded
      rw [hckE "created" (by decide)]
      exact hac hadded
    · intro hupd
      rw [containsKey_append] at hupd ⊢
      rw [show containsKey [("tags", Val.vl [])] "updated" = false from by decide,
        Bool.or_false] at hupd
      rw [show containsKey [("tags", Val.vl [])] "modified" = false from by decide,
        Bool.or_false]
      rw [hckE "updated" (by decide)] at hupd
      rw [hckE "modified" (by decide)]
      exact hum hupd
    · intro q
      by_cases hq : q = "tags"
      · subst hq
        rw [lookupV_append_of_none _ hEnone, htags]
        rfl
      · cases hw : lookupV E q with
        | some w =>
          rw [lookupV_append_of_some _ hw, ← hw, hE, lookupV_eraseKey_ne m _ hq]
        | none =>
          rw [lookupV_append_of_none _ hw,
            show lookupV [("tags", Val.vl [])] q = none from by
              rw [lookupV, if_neg (fun he => hq he.symm)]
              rfl,
            ← hw, hE, lookupV_eraseKey_ne m _ hq]
  · have hfe : filterEmpty m = m := by
      rw [filterEmpty]
      apply List.filter_eq_self.mpr
      intro kv hkv
      by_cases hk : kv.1 = "tags"
      · rw [hvalue_of_mem kv hkv hk]
        simp [isEmptyVal, hts0]
      · obtain ⟨s, hv, hws⟩ := hvals kv hkv hk
        have hsne : s ≠ "" := fun he => hws.2.1 (by rw [he])
        have hie : s.isEmpty = false := by
          rw [← Bool.not_eq_true, String.isEmpty_iff]
          exact hsne
        rw [hv]
        simp [isEmptyVal, hie]
    have hnn : _normalize_meta m = m := normalize_noop m hac hum ⟨ts, htags⟩
    rw [hfe, hnn]
    exact ⟨⟨hnd, hkeys, hvals, ⟨ts, htags, hwts⟩, hac, hum⟩, fun q => rfl⟩

lemma map_fst_pairing {A B : Type} (f : A → B) (l : List A) :
    (l.map (fun k => (k, f k))).map Prod.fst = l := by
  induction l with
  | nil => rfl
  | cons a r ih => simp [ih]

set_option maxHeartbeats 1000000 in
/-- Decoding the encoder's output, for a well-formed map and a body that does
not begin with a newline: the body round-trips exactly and the metadata
round-trips up to lookup. -/
lemma parse_build (m : Meta) (b : String) (hm : WFMeta m)
    (hb : b.data.head? ≠ some '\n') :
    (parse_front_matter (build_text m b)).2 = b ∧
    (∀ q, lookupV (parse_front_matter (build_text m b)).1 q = lookupV m q) ∧
    WFMeta (parse_front_matter (build_text m b)).1 := by
  obtain ⟨hWF, hlook⟩ := WF_filter_normalize m hm
  set M := _normalize_meta (filterEmpty m) with hM
  obtain ⟨hnd, hkeys, hvals, ⟨ts, htags, hwts⟩, hacM, humM⟩ := hWF
  set pairs : Meta := (buildKeys M).map (fun k => (k, (lookupV M k).getD (Val.vs "")))
    with hpairs
  have hpf : pairs.map Prod.fst = buildKeys M := by
    rw [hpairs]
    exact map_fst_pairing _ _
  have hpnd : (pairs.map Prod.fst).Nodup := by
    rw [hpf]
    exact buildKeys_nodup M hnd
  have hlookup_pairs_of_mem : ∀ kv ∈ pairs, lookupV M kv.1 = some kv.2 := by
    intro kv hkv
    rw [hpairs] at hkv
    obtain ⟨k, hk, rfl⟩ := List.mem_map.mp hkv
    have hck : containsKey M k = true := (mem_buildKeys_iff M k).mp hk
    have hsome : (lookupV M k).isSome = true := by
      rw [lookupV_isSome_iff]
      exact hck
    obtain ⟨v, hv⟩ := Option.isSome_iff_exists.mp hsome
    rw [hv]
    rfl
  have hmemM : ∀ kv ∈ pairs, kv ∈ M := fun kv hkv =>
    (show (kv.1, kv.2) ∈ M from mem_of_lookupV_some (hlookup_pairs_of_mem kv hkv))
  have hp : ∀ kv ∈ pairs, wfKey kv.1 ∧
      (kv.1 ≠ "tags" → ∃ s, kv.2 = Val.vs s ∧ wfValStr s) ∧
      (kv.1 = "tags" → ∃ ts2, kv.2 = Val.vl ts2 ∧ ∀ t ∈ ts2, wfTag t) := by
    intro kv hkv
    refine ⟨hkeys kv (hmemM kv hkv), fun hk => hvals kv (hmemM kv hkv) hk, fun hk => ?_⟩
    have h1 := hlookup_pairs_of_mem kv hkv
    rw [hk, htags] at h1
    exact ⟨ts, (Option.some_inj.mp h1).symm, hwts⟩
  set cores := pairs.map (fun kv => renderCore kv.1 kv.2) with hcores
  have hcprops : ∀ c ∈ cores, (∀ x ∈ c, pyIsLineBreak x = false) ∧
      (['-', '-', '-'].isSuffixOf c) = false := by
    intro c hc
    rw [hcores] at hc
    obtain ⟨kv, hkv, rfl⟩ := List.mem_map.mp hc
    obtain ⟨hwk, hvs, hvt⟩ := hp kv hkv
    by_cases hk : kv.1 = "tags"
    · obtain ⟨ts2, hv, hts2⟩ := hvt hk
      constructor
      · intro x hx
        rw [hv, show renderCore kv.1 (Val.vl ts2)
            = kv.1.data ++ (": [").data ++ fmtJoinL ts2 ++ [']'] from rfl] at hx
        rcases List.mem_append.mp hx with hx | hx
        · rcases List.mem_append.mp hx with hx | hx
          · rcases List.mem_append.mp hx with hx | hx
            · exact hwk.2.1 x hx
            · have hx3 : x = ':' ∨ x = ' ' ∨ x = '[' := by simpa using hx
              rcases hx3 with rfl | rfl | rfl <;> decide
          · rcases mem_fmtJoinL hx with ⟨t, ht, hxt⟩ | hx | hx | hx
            · exact (hts2 t ht).2.2.1 x hxt
            · rw [hx]; decide
            · rw [hx]; decide
            · rw [hx]; decide
        · have hx2 : x = ']' := by simpa using hx
          rw [hx2]; decide
      · rw [hv]
        exact not_dash_suffix_core_tags _
    · obtain ⟨s, hv, hws⟩ := hvs hk
      constructor
      · intro x hx
        rw [hv, renderCore_vs_eq] at hx
        rcases List.mem_append.mp hx with hx | hx
        · exact hwk.2.1 x hx
        · rcases List.mem_cons.mp hx with hx | hx
          · rw [hx]; decide
          · rcases List.mem_cons.mp hx with hx | hx
            · rw [hx]; decide
            · exact hws.2.2.1 x hx
      · rw [hv, renderCore_vs_eq]
        exact not_dash_suffix_core_str kv.1 s.data hws.2.2.2 hws.2.1
  have hbh : buildHeaderLines m = cores.map (fun c => c ++ ['\n']) := by
    rw [hcores, List.map_map]
    simp only [buildHeaderLines]
    rw [← hM, hpairs, List.map_map]
    apply List.map_congr_left
    intro k hk
    have hkv : (k, (lookupV M k).getD (Val.vs "")) ∈ pairs := by
      rw [hpairs]
      exact List.mem_map_of_mem _ hk
    obtain ⟨hwk, hvs, hvt⟩ := hp _ hkv
    apply renderKV_eq_core
    intro c hc
    by_cases hkt : k = "tags"
    · obtain ⟨ts2, hv, _⟩ := hvt hkt
      rw [show ((k, (lookupV M k).getD (Val.vs "")) : String × Val).2
          = (lookupV M k).getD (Val.vs "") from rfl] at hv
      rw [hv] at hc
      cases hc
    · obtain ⟨s, hv, hws⟩ := hvs hkt
      rw [show ((k, (lookupV M k).getD (Val.vs "")) : String × Val).2
          = (lookupV M k).getD (Val.vs "") from rfl] at hv
      rw [hv] at hc
      exact hws.2.2.1 c hc
  set Hdr := (cores.map (fun c => c ++ ['\n'])).flatten with hHdr
  have htext : (build_text m b).data = fmMark ++ (Hdr ++ (fmMark ++ b.data)) := by
    rw [show (build_text m b).data
        = fmMark ++ (buildHeaderLines m).flatten ++ fmMark ++ b.data from rfl, hbh, ← hHdr]
    simp [List.append_assoc]
  have hpre : fmMark.isPrefixOf (build_text m b).data = true := by
    rw [htext, List.isPrefixOf_iff_prefix]
    exact List.prefix_append _ _
  have hrest : (build_text m b).data.drop 4 = Hdr ++ (fmMark ++ b.data) := by
    rw [htext, show (4 : Nat) = fmMark.length from rfl, List.drop_left]
  have hfind : findSubL fmMark (Hdr ++ (fmMark ++ b.data)) = some Hdr.length := by
    rw [hHdr]
    exact findSubL_flatten_cores cores hcprops _
      (by rw [List.isPrefixOf_iff_prefix]; exact List.prefix_append _ _)
  have htake : (Hdr ++ (fmMark ++ b.data)).take Hdr.length = Hdr := List.take_left _ _
  have hdrop : (Hdr ++ (fmMark ++ b.data)).drop (Hdr.length + 4) = b.data := by
    rw [← List.drop_drop, List.drop_left,
      show (4 : Nat) = fmMark.length from rfl, List.drop_left]
  have hsplit : splitlinesL Hdr = cores := by
    rw [hHdr]
    exact splitlinesL_flatten cores (fun c hc => (hcprops c hc).1)
  have hfold : cores.foldl parseHeaderLine [] = pairs := by
    rw [hcores, foldl_parseHeaderLine_render pairs hp [],
      foldl_setIns_disjoint pairs [] (fun kv _ => rfl) hpnd, List.nil_append]
  have hresult : parse_front_matter (build_text m b) = (_normalize_meta pairs, b) := by
    simp only [parse_front_matter, if_pos hpre, hrest, hfind]
    rw [htake, hdrop, hsplit, hfold, dropWhile_newline_eq_self b hb]
  rw [hresult]
  have hck : ∀ q, containsKey pairs q = containsKey M q := fun q =>
    bool_eq_of_iff (by rw [containsKey_iff_mem_mapfst, hpf, mem_buildKeys_iff])
  have hlookup_pairs_eq : ∀ q, lookupV pairs q = lookupV M q := by
    intro q
    by_cases hq : containsKey M q = true
    · have hk : q ∈ buildKeys M := (mem_buildKeys_iff M q).mpr hq
      obtain ⟨v, hv⟩ := Option.isSome_iff_exists.mp
        (by rw [lookupV_isSome_iff]; exact hq)
      have hkvmem : (q, v) ∈ pairs := by
        rw [hpairs]
        refine List.mem_map.mpr ⟨q, hk, ?_⟩
        rw [hv]
        rfl
      rw [lookupV_of_mem_nodup hkvmem hpnd, hv]
    · have h1 : lookupV M q = none :=
        lookupV_eq_none_of_not_contains (Bool.not_eq_true _ ▸ hq)
      have h2 : containsKey pairs q = false := by
        rw [hck q]
        exact Bool.not_eq_true _ ▸ hq
      rw [lookupV_eq_none_of_not_contains h2, h1]
  have hnp : _normalize_meta pairs = pairs := by
    refine normalize_noop pairs ?_ ?_ ?_
    · intro h
      rw [hck] at h ⊢
      exact hacM h
    · intro h
      rw [hck] at h ⊢
      exact humM h
    · exact ⟨ts, by rw [hlookup_pairs_eq, htags]⟩
  refine ⟨rfl, fun q => ?_, ?_⟩
  · rw [show ((_normalize_meta pairs, b) : Meta × String).1 = _normalize_meta pairs from rfl,
      hnp, hlookup_pairs_eq, hlook]
  · rw [show ((_normalize_meta pairs, b) : Meta × String).1 = _normalize_meta pairs from rfl,
      hnp]
    refine ⟨hpnd, fun kv h => (hp kv h).1, fun kv h => (hp kv h).2.1,
      ⟨ts, ?_, hwts⟩, ?_, ?_⟩
    · rw [hlookup_pairs_eq, htags]
    · intro h
      rw [hck] at h ⊢
      exact hacM h
    · intro h
      rw [hck] at h ⊢
      exact humM h

/-- **C2, counterexample.**  The round-trip contract fails as stated: the
pair `({title: "", tags: []}, "B")` is itself produced by a decode (first
conjunct), yet decoding the text produced by encoding it loses the `title`
key — the encoder drops the empty-string value — so the result differs from
`(normalize m, b)` (second conjunct). -/
theorem C2_counterexample :
    (parse_front_matter "---\ntitle:\n---\nB"
      = ([("title", Val.vs ""), ("tags", Val.vl [])], "B")) ∧
    parse_front_matter (build_text [("title", Val.vs ""), ("tags", Val.vl [])] "B")
      ≠ (_normalize_meta [("title", Val.vs ""), ("tags", Val.vl [])], "B") := by
  constructor
  · decide
  · decide

/-- **C2 (amended).**  Round-trip `decode(encode(m, b)) = (normalize m, b)`
holds — with metadata equality read as Python dict equality, i.e. key-wise
lookup agreement — for every map of recognized single-line string fields and
every body, provided (as the counterexamples force): keys and values are
stripped, values are nonempty, free of line breaks and do not end in `---`,
`tags` is a list of stripped nonempty tags free of quote characters, keys
are unique, lowercase, colon- and comment-free, the legacy key co-presence
of a normalized map holds, and the body does not begin with a newline. -/
theorem C2_roundtrip_amended (m : Meta) (b : String) (hm : WFMeta m)
    (hb : b.data.head? ≠ some '\n') :
    (parse_front_matter (build_text m b)).2 = b ∧
    ∀ q, lookupV (parse_front_matter (build_text m b)).1 q
        = lookupV (_normalize_meta m) q := by
  obtain ⟨ts, ht, _⟩ := hm.2.2.2.1
  obtain ⟨h1, h2, _⟩ := parse_build m b hm hb
  refine ⟨h1, fun q => ?_⟩
  rw [h2 q, normalize_noop m hm.2.2.2.2.1 hm.2.2.2.2.2 ⟨ts, ht⟩]

/-- **C2, witness.**  The amended round-trip theorem applied to the concrete
well-formed map `{url: https://e.com, tags: [a]}` with body `"B"`. -/
theorem C2_witness :
    (parse_front_matter (build_text
        [("url", Val.vs "https://e.com"), ("tags", Val.vl ["a"])] "B")).2 = "B" ∧
    ∀ q, lookupV (parse_front_matter (build_text
        [("url", Val.vs "https://e.com"), ("tags", Val.vl ["a"])] "B")).1 q
      = lookupV (_normalize_meta
        [("url", Val.vs "https://e.com"), ("tags", Val.vl ["a"])]) q := by
  refine C2_roundtrip_amended _ "B" ⟨by decide, ?_, ?_, ?_, by decide, by decide⟩
    (by decide)
  · intro kv hkv
    rcases List.mem_cons.mp hkv with rfl | hkv
    · exact ⟨by decide, by decide, by decide, by decide, by decide⟩
    rcases List.mem_cons.mp hkv with rfl | hkv
    · exact ⟨by decide, by decide, by decide, by decide, by decide⟩
    · cases hkv
  · intro kv hkv hk
    rcases List.mem_cons.mp hkv with rfl | hkv
    · exact ⟨"https://e.com", rfl, by decide, by decide, by decide, by decide⟩
    rcases List.mem_cons.mp hkv with rfl | hkv
    · exact absurd rfl hk
    · cases hkv
  · refine ⟨["a"], rfl, ?_⟩
    intro t ht
    rcases List.mem_cons.mp ht with rfl | ht
    · exact ⟨by decide, by decide, by decide, by decide, by decide⟩
    · cases ht

/-! ## Claim C8: the tag-mutation command (`cmd_tag`)

`old_bkmrk.py` lines 589–602 and `bm/commands.py` lines 324–338 (identical
mutation logic).  The command resolves the token to a file (the resolver is
the subject of C1/C6), decodes it (`load_entry`), turns the current tags
into a Python set, updates or differences it with the stripped nonempty
arguments, stores `sorted(cur)` back, stamps `modified` with `iso_now()`
(the nondeterministic clock is modeled as the parameter `now`), and
atomically rewrites the file with the re-encoded text.  `cmd_tag_entry`
below is that per-entry transformation on the file's text. -/

/-- Python string `<` (code-point lexicographic) as used by `sorted`. -/
def strLt (a b : String) : Bool := lexCL a.data b.data

def strLe (a b : String) : Bool := ! strLt b a

def strLeP (a b : String) : Prop := strLe a b = true

instance : DecidableRel strLeP := fun _ _ => instDecidableEqBool _ _

instance : IsTotal String strLeP :=
  ⟨by
    intro a b
    by_cases h : strLt b a = true
    · right
      simp only [strLeP, strLe, Bool.not_eq_true']
      exact lexCL_asymm h
    · left
      simp only [strLeP, strLe, Bool.not_eq_true']
      exact Bool.eq_false_iff.mpr h⟩

instance : IsTrans String strLeP :=
  ⟨by
    intro a b c h1 h2
    simp only [strLeP, strLe, Bool.not_eq_true', strLt] at h1 h2 ⊢
    by_contra hca
    rw [Bool.not_eq_false] at hca
    by_cases hab : lexCL a.data b.data = true
    · exact absurd (lexCL_trans hca hab) (Bool.eq_false_iff.mp h2)
    · have hk := lexCL_eq_of_not_lt (Bool.eq_false_iff.mpr hab) h1
      rw [← hk] at h2
      exact absurd hca (Bool.eq_false_iff.mp h2)⟩

instance : IsAntisymm String strLeP :=
  ⟨by
    intro a b h1 h2
    simp only [strLeP, strLe, Bool.not_eq_true', strLt] at h1 h2
    exact String.ext (lexCL_eq_of_not_lt h2 h1)⟩

/-- Python `sorted(set(...))` on strings: the distinct elements in
code-point lexicographic order. -/
def pySetSorted (l : List String) : List String := List.insertionSort strLeP l.dedup

lemma mem_pySetSorted {t : String} {l : List String} :
    t ∈ pySetSorted l ↔ t ∈ l := by
  rw [pySetSorted, (List.perm_insertionSort strLeP l.dedup).mem_iff, List.mem_dedup]

lemma nodup_pySetSorted (l : List String) : (pySetSorted l).Nodup :=
  (List.perm_insertionSort strLeP l.dedup).nodup_iff.mpr (List.nodup_dedup l)

lemma pySetSorted_eq_of_mem_iff {l1 l2 : List String}
    (h : ∀ t, t ∈ l1 ↔ t ∈ l2) : pySetSorted l1 = pySetSorted l2 := by
  refine List.eq_of_perm_of_sorted ?_ (List.sorted_insertionSort _ _)
    (List.sorted_insertionSort _ _)
  refine ((List.perm_insertionSort _ _).trans ?_).trans
    (List.perm_insertionSort _ _).symm
  refine (List.perm_ext_iff_of_nodup (List.nodup_dedup l1) (List.nodup_dedup l2)).mpr ?_
  intro a
  rw [List.mem_dedup, List.mem_dedup]
  exact h a

/-- `[t.strip() for t in args.tags if t.strip()]`. -/
def stripArgs (args : List String) : List String :=
  args.filterMap (fun t => let s := pyStrip t; if s = "" then none else some s)

/-- `meta.get("tags", [])`; decode always stores a list there (C10). -/
def tags_of (meta : Meta) : List String :=
  match lookupV meta "tags" with
  | some (.vl ts) => ts
  | _ => []

/-- `cmd_tag` applied to the resolved entry's file text: decode, set
update (`add`) or difference (`rm`) with the stripped arguments,
`meta["tags"] = sorted(cur)`, `meta["modified"] = iso_now()`, re-encode. -/
def cmd_tag_entry (isAdd : Bool) (tagArgs : List String) (now : String)
    (text : String) : String :=
  let mb := parse_front_matter text
  let cur := tags_of mb.1
  let cleaned := stripArgs tagArgs
  let newTags := if isAdd then pySetSorted (cur ++ cleaned)
    else pySetSorted (cur.filter (fun t => ¬ t ∈ cleaned))
  build_text (setIns (setIns mb.1 "tags" (Val.vl newTags)) "modified" (Val.vs now)) mb.2

lemma cmd_tag_entry_eq (isAdd : Bool) (tagArgs : List String) (now : String)
    (text : String) (m : Meta) (b : String) (h : parse_front_matter text = (m, b)) :
    cmd_tag_entry isAdd tagArgs now text
      = build_text (setIns (setIns m "tags" (Val.vl
          (if isAdd then pySetSorted (tags_of m ++ stripArgs tagArgs)
           else pySetSorted ((tags_of m).filter (fun t => ¬ t ∈ stripArgs tagArgs)))))
          "modified" (Val.vs now)) b := by
  simp only [cmd_tag_entry, h]

lemma containsKey_setIns_ne (m : Meta) (k : String) (v : Val) {q : String}
    (hq : q ≠ k) : containsKey (setIns m k v) q = containsKey m q := by
  rw [← lookupV_isSome_iff, ← lookupV_isSome_iff, lookupV_setIns_ne m k v hq]

lemma mem_setIns_cases {m : Meta} {k : String} {v : Val} {kv : String × Val}
    (h : kv ∈ setIns m k v) : kv ∈ m ∨ kv = (k, v) := by
  rw [setIns] at h
  split at h
  · obtain ⟨kv0, hkv0, heq⟩ := List.mem_map.mp h
    by_cases hk : kv0.1 = k
    · rw [if_pos hk] at heq
      exact Or.inr heq.symm
    · rw [if_neg hk] at heq
      exact Or.inl (heq ▸ hkv0)
  · rcases List.mem_append.mp h with h | h
    · exact Or.inl h
    · simp only [List.mem_singleton] at h
      exact Or.inr h

lemma map_fst_setIns_nodup {m : Meta} (k : String) (v : Val)
    (h : (m.map Prod.fst).Nodup) : ((setIns m k v).map Prod.fst).Nodup := by
  rw [setIns]
  split
  · have he : (m.map (fun kv => if kv.1 = k then (k, v) else kv)).map Prod.fst
        = m.map Prod.fst := by
      rw [List.map_map]
      apply List.map_congr_left
      intro kv _
      by_cases hk : kv.1 = k
      · simp [hk]
      · simp [hk]
    rw [he]
    exact h
  · rename_i hnc
    rw [List.map_append]
    refine List.Nodup.append h (by simp) ?_
    intro a ha1 ha2
    simp only [List.map_cons, List.map_nil, List.mem_singleton] at ha2
    subst ha2
    exact absurd (containsKey_iff_mem_mapfst.mpr ha1) hnc

lemma WFMeta_setIns_tags (m : Meta) (hm : WFMeta m) (ts2 : List String)
    (hts2 : ∀ t ∈ ts2, wfTag t) : WFMeta (setIns m "tags" (Val.vl ts2)) := by
  obtain ⟨hnd, hkeys, hvals, ⟨ts, htags, hwts⟩, hac, hum⟩ := hm
  refine ⟨map_fst_setIns_nodup _ _ hnd, ?_, ?_, ?_, ?_, ?_⟩
  · intro kv hkv
    rcases mem_setIns_cases hkv with h | h
    · exact hkeys kv h
    · have h1 : kv.1 = "tags" := by rw [h]
      rw [h1]
      exact ⟨by decide, by decide, by decide, by decide, by decide⟩
  · intro kv hkv hk
    rcases mem_setIns_cases hkv with h | h
    · exact hvals kv h hk
    · rw [h] at hk
      exact absurd rfl hk
  · exact ⟨ts2, lookupV_setIns_self m "tags" _, hts2⟩
  · intro h
    rw [containsKey_setIns_ne m _ _ (by decide)] at h ⊢
    exact hac h
  · intro h
    rw [containsKey_setIns_ne m _ _ (by decide)] at h ⊢
    exact hum h

lemma WFMeta_setIns_modified (m : Meta) (hm : WFMeta m) (s : String)
    (hs : wfValStr s) : WFMeta (setIns m "modified" (Val.vs s)) := by
  obtain ⟨hnd, hkeys, hvals, ⟨ts, htags, hwts⟩, hac, hum⟩ := hm
  refine ⟨map_fst_setIns_nodup _ _ hnd, ?_, ?_, ?_, ?_, ?_⟩
  · intro kv hkv
    rcases mem_setIns_cases hkv with h | h
    · exact hkeys kv h
    · have h1 : kv.1 = "modified" := by rw [h]
      rw [h1]
      exact ⟨by decide, by decide, by decide, by decide, by decide⟩
  · intro kv hkv hk
    rcases mem_setIns_cases hkv with h | h
    · exact hvals kv h hk
    · have h1 : kv.2 = Val.vs s := by rw [h]
      exact ⟨s, h1, hs⟩
  · exact ⟨ts, by rw [lookupV_setIns_ne m _ _ (by decide), htags], hwts⟩
  · intro h
    rw [containsKey_setIns_ne m _ _ (by decide)] at h ⊢
    exact hac h
  · intro h
    exact containsKey_of_lookupV_some (lookupV_setIns_self m "modified" _)

/-- **C8, counterexample.**  The claim fails when a pre-existing tag equals
an added-then-removed tag: an entry with tags `[x]`, after `add [x, y]` and
`rm [x]`, holds tags `[y]` — not "`[y]` plus any pre-existing tags (sorted)",
which would be `sorted({x, y}) = [x, y]` — because the removal also strips
the pre-existing `x` from the set. -/
theorem C8_counterexample :
    lookupV (parse_front_matter "---\nurl: https://e.com\ntags: [x]\n---\nB").1 "tags"
      = some (Val.vl ["x"]) ∧
    lookupV (parse_front_matter
        (cmd_tag_entry false ["x"] "2024-01-02T00:00:00"
          (cmd_tag_entry true ["x", "y"] "2024-01-01T00:00:00"
            "---\nurl: https://e.com\ntags: [x]\n---\nB"))).1 "tags"
      = some (Val.vl ["y"]) ∧
    some (Val.vl ["y"]) ≠ some (Val.vl (pySetSorted (["x"] ++ ["y"]))) := by
  refine ⟨by decide, by decide, by decide⟩

set_option maxHeartbeats 1600000 in
/-- **C8 (amended).**  The tag-mutation frame property, for a decode-produced
entry whose pre-existing tags do not contain the added-then-removed tag
`"x"`: after `add ["x", "y"]` then `rm ["x"]` the stored entry's tags are
exactly the pre-existing tags plus `"y"`, as a sorted set; `modified` is
newly set to the second stamp; every other field (`url`, `title`, `created`,
pass-through keys) and the body are unchanged. -/
theorem C8_tag_mutation_amended (t : String) (now1 now2 : String) (m : Meta)
    (b : String) (ts : List String)
    (hparse : parse_front_matter t = (m, b)) (hm : WFMeta m)
    (hb : b.data.head? ≠ some '\n')
    (hn1 : wfValStr now1) (hn2 : wfValStr now2)
    (hts : lookupV m "tags" = some (Val.vl ts))
    (hx : "x" ∉ ts) :
    lookupV (parse_front_matter (cmd_tag_entry false ["x"] now2
        (cmd_tag_entry true ["x", "y"] now1 t))).1 "tags"
      = some (Val.vl (pySetSorted (ts ++ ["y"]))) ∧
    lookupV (parse_front_matter (cmd_tag_entry false ["x"] now2
        (cmd_tag_entry true ["x", "y"] now1 t))).1 "modified"
      = some (Val.vs now2) ∧
    (∀ q, q ≠ "tags" → q ≠ "modified" →
      lookupV (parse_front_matter (cmd_tag_entry false ["x"] now2
        (cmd_tag_entry true ["x", "y"] now1 t))).1 q = lookupV m q) ∧
    (parse_front_matter (cmd_tag_entry false ["x"] now2
        (cmd_tag_entry true ["x", "y"] now1 t))).2 = b := by
  have hwts : ∀ x ∈ ts, wfTag x := by
    obtain ⟨ts0, hts0, hw0⟩ := hm.2.2.2.1
    have he : Val.vl ts0 = Val.vl ts := Option.some_inj.mp (by rw [← hts0, hts])
    injection he with he2
    rw [← he2]
    exact hw0
  have htod : tags_of m = ts := by
    rw [tags_of, hts]
  have hclean1 : stripArgs ["x", "y"] = ["x", "y"] := by decide
  have hclean2 : stripArgs ["x"] = ["x"] := by decide
  have hstep1 : cmd_tag_entry true ["x", "y"] now1 t
      = build_text (setIns (setIns m "tags" (Val.vl (pySetSorted (ts ++ ["x", "y"]))))
          "modified" (Val.vs now1)) b := by
    rw [cmd_tag_entry_eq true _ _ t m b hparse, if_pos rfl, htod, hclean1]
  have hNT1wf : ∀ x ∈ pySetSorted (ts ++ ["x", "y"]), wfTag x := by
    intro x hxx
    rcases List.mem_append.mp (mem_pySetSorted.mp hxx) with h | h
    · exact hwts x h
    · rcases List.mem_cons.mp h with rfl | h
      · exact ⟨by decide, by decide, by decide, by decide, by decide⟩
      rcases List.mem_cons.mp h with rfl | h
      · exact ⟨by decide, by decide, by decide, by decide, by decide⟩
      · cases h
  have hm2wf : WFMeta (setIns (setIns m "tags" (Val.vl (pySetSorted (ts ++ ["x", "y"]))))
      "modified" (Val.vs now1)) :=
    WFMeta_setIns_modified _ (WFMeta_setIns_tags m hm _ hNT1wf) now1 hn1
  obtain ⟨hb2, hl2, hwf2⟩ := parse_build
    (setIns (setIns m "tags" (Val.vl (pySetSorted (ts ++ ["x", "y"]))))
      "modified" (Val.vs now1)) b hm2wf hb
  have htags2 : lookupV (parse_front_matter (build_text
      (setIns (setIns m "tags" (Val.vl (pySetSorted (ts ++ ["x", "y"]))))
        "modified" (Val.vs now1)) b)).1 "tags"
      = some (Val.vl (pySetSorted (ts ++ ["x", "y"]))) := by
    rw [hl2 "tags", lookupV_setIns_ne _ _ _ (by decide), lookupV_setIns_self]
  have hparse2 : parse_front_matter (cmd_tag_entry true ["x", "y"] now1 t)
      = ((parse_front_matter (build_text
          (setIns (setIns m "tags" (Val.vl (pySetSorted (ts ++ ["x", "y"]))))
            "modified" (Val.vs now1)) b)).1, b) := by
    rw [hstep1]
    exact Prod.ext rfl hb2
  have htod2 : tags_of (parse_front_matter (build_text
      (setIns (setIns m "tags" (Val.vl (pySetSorted (ts ++ ["x", "y"]))))
        "modified" (Val.vs now1)) b)).1 = pySetSorted (ts ++ ["x", "y"]) := by
    rw [tags_of, htags2]
  have hstep2 : cmd_tag_entry false ["x"] now2 (cmd_tag_entry true ["x", "y"] now1 t)
      = build_text (setIns (setIns (parse_front_matter (build_text
          (setIns (setIns m "tags" (Val.vl (pySetSorted (ts ++ ["x", "y"]))))
            "modified" (Val.vs now1)) b)).1 "tags"
          (Val.vl (pySetSorted ((pySetSorted (ts ++ ["x", "y"])).filter
            (fun t => ¬ t ∈ ["x"])))))
          "modified" (Val.vs now2)) b := by
    rw [cmd_tag_entry_eq false _ _ _ _ b hparse2,
      if_neg (by exact fun h => absurd h (by decide)), htod2, hclean2]
  have hNT2 : pySetSorted ((pySetSorted (ts ++ ["x", "y"])).filter
      (fun t => ¬ t ∈ ["x"])) = pySetSorted (ts ++ ["y"]) := by
    apply pySetSorted_eq_of_mem_iff
    intro a
    rw [List.mem_filter]
    constructor
    · rintro ⟨h1, h2⟩
      simp only [decide_not, Bool.not_eq_true', decide_eq_false_iff_not,
        List.mem_singleton] at h2
      rcases List.mem_append.mp (mem_pySetSorted.mp h1) with h | h
      · exact List.mem_append.mpr (Or.inl h)
      · rcases List.mem_cons.mp h with rfl | h
        · exact absurd rfl h2
        rcases List.mem_cons.mp h with rfl | h
        · exact List.mem_append.mpr (Or.inr (by simp))
        · cases h
    · intro h1
      rcases List.mem_append.mp h1 with h | h
      · refine ⟨mem_pySetSorted.mpr (List.mem_append.mpr (Or.inl h)), ?_⟩
        simp only [decide_not, Bool.not_eq_true', decide_eq_false_iff_not,
          List.mem_singleton]
        intro he
        rw [he] at h
        exact hx h
      · rcases List.mem_cons.mp h with rfl | h
        · exact ⟨mem_pySetSorted.mpr (List.mem_append.mpr (Or.inr (by simp))), by decide⟩
        · cases h
  have hNT2wf : ∀ x ∈ pySetSorted ((pySetSorted (ts ++ ["x", "y"])).filter
      (fun t => ¬ t ∈ ["x"])), wfTag x := by
    intro x hxx
    exact hNT1wf x (List.mem_filter.mp (mem_pySetSorted.mp hxx)).1
  have hm3wf : WFMeta (setIns (setIns (parse_front_matter (build_text
      (setIns (setIns m "tags" (Val.vl (pySetSorted (ts ++ ["x", "y"]))))
        "modified" (Val.vs now1)) b)).1 "tags"
      (Val.vl (pySetSorted ((pySetSorted (ts ++ ["x", "y"])).filter
        (fun t => ¬ t ∈ ["x"])))))
      "modified" (Val.vs now2)) :=
    WFMeta_setIns_modified _ (WFMeta_setIns_tags _ hwf2 _ hNT2wf) now2 hn2
  obtain ⟨hb3, hl3, _⟩ := parse_build
    (setIns (setIns (parse_front_matter (build_text
      (setIns (setIns m "tags" (Val.vl (pySetSorted (ts ++ ["x", "y"]))))
        "modified" (Val.vs now1)) b)).1 "tags"
      (Val.vl (pySetSorted ((pySetSorted (ts ++ ["x", "y"])).filter
        (fun t => ¬ t ∈ ["x"])))))
      "modified" (Val.vs now2)) b hm3wf hb
  refine ⟨?_, ?_, fun q hq1 hq2 => ?_, ?_⟩
  · rw [hstep2, hl3 "tags", lookupV_setIns_ne _ _ _ (by decide),
      lookupV_setIns_self, hNT2]
  · rw [hstep2, hl3 "modified", lookupV_setIns_self]
  · rw [hstep2, hl3 q, lookupV_setIns_ne _ _ _ hq2, lookupV_setIns_ne _ _ _ hq1,
      hl2 q, lookupV_setIns_ne _ _ _ hq2, lookupV_setIns_ne _ _ _ hq1]
  · rw [hstep2]
    exact hb3

/-- **C8, witness.**  The amended tag-mutation theorem at a concrete entry
with pre-existing tags `[a]` (which do not contain `x`): after
`add [x, y]` then `rm [x]` the tags are `sorted({a, y}) = [a, y]`,
`modified` is the second stamp, and `url` and the body are unchanged. -/
theorem C8_witness :
    lookupV (parse_front_matter (cmd_tag_entry false ["x"] "2024-01-02T00:00:00"
        (cmd_tag_entry true ["x", "y"] "2024-01-01T00:00:00"
          "---\nurl: https://e.com\ntags: [a]\n---\nB"))).1 "tags"
      = some (Val.vl (pySetSorted (["a"] ++ ["y"]))) ∧
    lookupV (parse_front_matter (cmd_tag_entry false ["x"] "2024-01-02T00:00:00"
        (cmd_tag_entry true ["x", "y"] "2024-01-01T00:00:00"
          "---\nurl: https://e.com\ntags: [a]\n---\nB"))).1 "modified"
      = some (Val.vs "2024-01-02T00:00:00") ∧
    (∀ q, q ≠ "tags" → q ≠ "modified" →
      lookupV (parse_front_matter (cmd_tag_entry false ["x"] "2024-01-02T00:00:00"
        (cmd_tag_entry true ["x", "y"] "2024-01-01T00:00:00"
          "---\nurl: https://e.com\ntags: [a]\n---\nB"))).1 q
        = lookupV [("url", Val.vs "https://e.com"), ("tags", Val.vl ["a"])] q) ∧
    (parse_front_matter (cmd_tag_entry false ["x"] "2024-01-02T00:00:00"
        (cmd_tag_entry true ["x", "y"] "2024-01-01T00:00:00"
          "---\nurl: https://e.com\ntags: [a]\n---\nB"))).2 = "B" := by
  refine C8_tag_mutation_amended "---\nurl: https://e.com\ntags: [a]\n---\nB"
    "2024-01-01T00:00:00" "2024-01-02T00:00:00"
    [("url", Val.vs "https://e.com"), ("tags", Val.vl ["a"])] "B" ["a"]
    (by decide) ⟨by decide, ?_, ?_, ?_, by decide, by decide⟩ (by decide)
    ⟨by decide, by decide, by decide, by decide⟩
    ⟨by decide, by decide, by decide, by decide⟩
    (by decide) (by decide)
  · intro kv hkv
    rcases List.mem_cons.mp hkv with rfl | hkv
    · exact ⟨by decide, by decide, by decide, by decide, by decide⟩
    rcases List.mem_cons.mp hkv with rfl | hkv
    · exact ⟨by decide, by decide, by decide, by decide, by decide⟩
    · cases hkv
  · intro kv hkv hk
    rcases List.mem_cons.mp hkv with rfl | hkv
    · exact ⟨"https://e.com", rfl, by decide, by decide, by decide, by decide⟩
    rcases List.mem_cons.mp hkv with rfl | hkv
    · exact absurd rfl hk
    · cases hkv
  · refine ⟨["a"], rfl, ?_⟩
    intro x hxx
    rcases List.mem_cons.mp hxx with rfl | hxx
    · exact ⟨by decide, by decide, by decide, by decide, by decide⟩
    · cases hxx

end Bkmrk

